import Mathlib

/-!
Verification development for the MindCare risk-detection and classification
engine (`ia_core/analisis_sentimiento.py`).

Texts are modelled as `List Char`.  Python's Unicode-dependent primitives
(`str.lower`, `unicodedata.normalize('NFD', ·)` with category `Mn` stripping,
the whitespace classes of `str.strip`/`str.split`/regex `\s`) are embedded as
total functions on `Char` whose tables cover the character repertoire of the
program's catalogs and of Spanish text (ASCII plus the accented letters
á é í ó ú ü ñ and their upper-case forms, and the combining marks
U+0300–U+036F); characters outside the tables are fixed points, exactly as
they are untouched by the corresponding Python primitives on that repertoire.
Python floats are modelled exactly by unreduced integer fractions (`Frac`,
a numerator/denominator pair with the rational interpretation `Frac.val`);
IEEE-754 rounding noise is not modelled, and none of the verified statements
sits on a float boundary.
-/

set_option maxRecDepth 1000000

namespace MindCare

/-- Whitespace class shared by Python's `str.strip`, `str.split()` and the
regex class `\s` (ASCII whitespace plus Unicode space characters). -/
def esEspacio (c : Char) : Bool :=
  c == ' ' || c == '\t' || c == '\n' || c == '\r' || c == '\x0b' || c == '\x0c' ||
  c == '\x1c' || c == '\x1d' || c == '\x1e' || c == '\x1f' || c == '\u0085' || c == ' ' ||
  c == ' ' || (0x2000 ≤ c.toNat && c.toNat ≤ 0x200a) || c == ' ' || c == ' ' ||
  c == ' ' || c == ' ' || c == '　'

/-- Unicode category `Mn` (nonspacing combining marks), restricted to the
Combining Diacritical Marks block used by Spanish diacritics. -/
def esMn (c : Char) : Bool :=
  0x0300 ≤ c.toNat && c.toNat ≤ 0x036f

/-- Association-list lookup keyed by characters. -/
def busca {α : Type} (c : Char) : List (Char × α) → Option α
  | [] => none
  | (k, v) :: rest => if c = k then some v else busca c rest

/-- Lower-casing table of Python's `str.lower` on the modelled repertoire:
ASCII A–Z plus the accented upper-case letters of the catalogs. -/
def tablaMinusculas : List (Char × Char) :=
  [('A','a'),('B','b'),('C','c'),('D','d'),('E','e'),('F','f'),('G','g'),('H','h'),
   ('I','i'),('J','j'),('K','k'),('L','l'),('M','m'),('N','n'),('O','o'),('P','p'),
   ('Q','q'),('R','r'),('S','s'),('T','t'),('U','u'),('V','v'),('W','w'),('X','x'),
   ('Y','y'),('Z','z'),
   ('Á','á'),('É','é'),('Í','í'),('Ó','ó'),('Ú','ú'),('Ü','ü'),('Ñ','ñ')]

/-- Python `str.lower`, character-wise, on the modelled repertoire. -/
def minuscula (c : Char) : Char :=
  (busca c tablaMinusculas).getD c

/-- Canonical decomposition table (`unicodedata.normalize('NFD', ·)`) for the
precomposed accented letters of the modelled repertoire: base letter followed
by its combining mark. -/
def tablaNFD : List (Char × List Char) :=
  [('á', ['a', '́']), ('é', ['e', '́']), ('í', ['i', '́']),
   ('ó', ['o', '́']), ('ú', ['u', '́']), ('ü', ['u', '̈']),
   ('ñ', ['n', '̃']),
   ('Á', ['A', '́']), ('É', ['E', '́']), ('Í', ['I', '́']),
   ('Ó', ['O', '́']), ('Ú', ['U', '́']), ('Ü', ['U', '̈']),
   ('Ñ', ['N', '̃'])]

/-- Character-wise Unicode canonical decomposition on the modelled repertoire. -/
def nfd (c : Char) : List Char :=
  (busca c tablaNFD).getD [c]

/-- Python `str.strip()`: remove leading and trailing whitespace. -/
def recorta (l : List Char) : List Char :=
  (((l.dropWhile esEspacio).reverse.dropWhile esEspacio)).reverse

/-- Fueled worker for `colapsaRepes`; the fuel argument only drives structural
recursion and is irrelevant whenever it is at least the list length. -/
def colapsaRepesGo : Nat → List Char → List Char
  | _, [] => []
  | 0, l => l
  | fuel + 1, c :: rest =>
    let run := rest.takeWhile (fun d => d = c)
    (if c ≠ '\n' ∧ 3 ≤ run.length + 1 then [c] else c :: run) ++
      colapsaRepesGo fuel (rest.dropWhile (fun d => d = c))

/-- Python `re.sub(r'(.)\1{2,}', r'\1', t)`: collapse every run of 3 or more
identical characters to a single occurrence.  (`.` does not match a newline,
so runs of `'\n'` are left alone; the later whitespace collapse handles them.) -/
def colapsaRepes (l : List Char) : List Char :=
  colapsaRepesGo l.length l

/-- Fueled worker for `colapsaEspacios`. -/
def colapsaEspaciosGo : Nat → List Char → List Char
  | _, [] => []
  | 0, l => l
  | fuel + 1, c :: rest =>
    if esEspacio c then ' ' :: colapsaEspaciosGo fuel (rest.dropWhile esEspacio)
    else c :: colapsaEspaciosGo fuel rest

/-- Python `re.sub(r'\s+', ' ', t)`: replace every maximal whitespace run by a
single space. -/
def colapsaEspacios (l : List Char) : List Char :=
  colapsaEspaciosGo l.length l

/-- `norm` from `analisis_sentimiento.py`: lower-case and strip, remove
combining marks after canonical decomposition, collapse character repetitions,
collapse whitespace. -/
def norm (t : List Char) : List Char :=
  colapsaEspacios (colapsaRepes
    (((recorta (t.map minuscula)).flatMap nfd).filter (fun c => !(esMn c))))

/-- Exact model of a Python float value: an integer fraction, kept unreduced
(every arithmetic operation of the program builds the numerator and
denominator directly, so evaluation never needs a gcd).  All fractions the
program builds have a positive denominator. -/
structure Frac where
  num : ℤ
  den : ℤ
deriving DecidableEq, Repr

/-- Embed an integer. -/
def Frac.ofInt (n : ℤ) : Frac := ⟨n, 1⟩

/-- Addition of fractions. -/
def Frac.add (a b : Frac) : Frac := ⟨a.num * b.den + b.num * a.den, a.den * b.den⟩

/-- Multiplication of fractions. -/
def Frac.mul (a b : Frac) : Frac := ⟨a.num * b.num, a.den * b.den⟩

/-- Division of fractions, keeping the denominator's sign non-negative when
the divisor's numerator is (the program only ever divides by positive
values). -/
def Frac.div (a b : Frac) : Frac :=
  if 0 ≤ b.num then ⟨a.num * b.den, a.den * b.num⟩
  else ⟨-(a.num * b.den), a.den * (-b.num)⟩

/-- Comparison `a <= b`, by cross multiplication (exact for positive
denominators, which all program-built fractions have). -/
def Frac.fle (a b : Frac) : Bool := decide (a.num * b.den ≤ b.num * a.den)

/-- Python `max(a, b)`. -/
def Frac.fmax (a b : Frac) : Frac := if Frac.fle b a then a else b

/-- Python `min(a, b)`. -/
def Frac.fmin (a b : Frac) : Frac := if Frac.fle a b then a else b

/-- Rational value of a fraction. -/
def Frac.val (a : Frac) : ℚ := (a.num : ℚ) / (a.den : ℚ)

/-- Round half to even to an integer (the rounding of Python's `round`),
via the floored quotient and the doubled remainder. -/
def Frac.rne (q : Frac) : ℤ :=
  let f := q.num.fdiv q.den
  let r2 := 2 * (q.num - f * q.den)
  if r2 < q.den then f
  else if q.den < r2 then f + 1
  else if f % 2 = 0 then f else f + 1

/-- Python `round(x, 3)`. -/
def Frac.round3 (q : Frac) : Frac := ⟨Frac.rne (Frac.mul q ⟨1000, 1⟩), 1000⟩

/-- Python `str.split()` (no argument): split on whitespace runs, discarding
empty pieces.  Fueled worker. -/
def divideGo : Nat → List Char → List (List Char)
  | _, [] => []
  | 0, l => [l]
  | fuel + 1, c :: rest =>
    if esEspacio c then divideGo fuel (rest.dropWhile esEspacio)
    else (c :: rest.takeWhile (fun d => !(esEspacio d))) ::
      divideGo fuel (rest.dropWhile (fun d => !(esEspacio d)))

/-- Python `str.split()` on whitespace. -/
def divide (l : List Char) : List (List Char) :=
  divideGo l.length l

/-- Run length of the common suffix of `a` and `b` ending at positions
`(i, j)`, counted inside the windows starting at `alo`/`blo`; this is the
value difflib's `find_longest_match` keeps at key `j` of its `j2len`
dictionary while scanning text position `i`. -/
def racha (a b : List Char) (alo blo : Nat) : Nat → Nat → Nat
  | 0, j =>
    match a.get? 0, b.get? j with
    | some x, some y => if x = y then 1 else 0
    | _, _ => 0
  | i' + 1, 0 =>
    match a.get? (i' + 1), b.get? 0 with
    | some x, some y => if x = y then 1 else 0
    | _, _ => 0
  | i' + 1, j' + 1 =>
    match a.get? (i' + 1), b.get? (j' + 1) with
    | some x, some y =>
      if x = y then
        (if alo ≤ i' ∧ blo ≤ j' then racha a b alo blo i' j' else 0) + 1
      else 0
    | _, _ => 0

/-- Best block of row `i`: the first `j` in `[blo, bhi)` realising the
maximal run length ending at `(i, j)`, reported as
`(i - k + 1, j - k + 1, k)`. -/
def mejorFila (a b : List Char) (alo blo bhi i : Nat) : Nat × Nat × Nat :=
  (List.range' blo (bhi - blo)).foldl
    (fun best j =>
      let k := racha a b alo blo i j
      if best.2.2 < k then (i + 1 - k, j + 1 - k, k) else best)
    (alo, blo, 0)

/-- difflib `SequenceMatcher.find_longest_match` on the windows
`a[alo:ahi]`, `b[blo:bhi]` with no junk (the `b` strings passed by the
program are far below the 200-character autojunk threshold): the first pair
`(i, j)` in lexicographic scan order realising the maximal run length `k`
(strict improvement per row, earliest row kept on ties — exactly the
`k > bestsize` updates of the Python loop), reported as the block
`(i - k + 1, j - k + 1, k)`. -/
def mejorBloque (a b : List Char) (alo ahi blo bhi : Nat) : Nat × Nat × Nat :=
  (List.range' alo (ahi - alo)).foldl
    (fun best i =>
      let rb := mejorFila a b alo blo bhi i
      if best.2.2 < rb.2.2 then rb else best)
    (alo, blo, 0)

/-- Total size of the matching blocks difflib's `get_matching_blocks` finds:
the longest block plus recursion on both sides.  Fueled worker; each level
shrinks the combined window size, so `|a| + |b| + 1` fuel always suffices. -/
def totalBloquesGo (a b : List Char) : Nat → Nat → Nat → Nat → Nat → Nat
  | 0, _, _, _, _ => 0
  | fuel + 1, alo, ahi, blo, bhi =>
    let r := mejorBloque a b alo ahi blo bhi
    if r.2.2 = 0 then 0
    else totalBloquesGo a b fuel alo r.1 blo r.2.1 + r.2.2 +
         totalBloquesGo a b fuel (r.1 + r.2.2) ahi (r.2.1 + r.2.2) bhi

/-- Total matched size `M` over the whole strings. -/
def totalBloques (a b : List Char) : Nat :=
  totalBloquesGo a b (a.length + b.length + 1) 0 a.length 0 b.length

/-- `similitud` from the source: `difflib.SequenceMatcher(None, a, b).ratio()`,
i.e. `2·M / (|a| + |b|)` (and 1 on two empty strings). -/
def similitud (a b : List Char) : Frac :=
  if a.length + b.length = 0 then ⟨1, 1⟩
  else ⟨2 * totalBloques a b, a.length + b.length⟩

/-- Evidence entries accumulated by the detector.  The Python code stores
formatted strings; the constructors keep the same payload (the `:.2f`
formatting of the similarity value is abstracted to the exact rational). -/
inductive Evidencia where
  | critico (palabra : List Char)
  | frase (f : List Char)
  | fuzzyHeader
  | fuzzy (patron : List Char) (sim : Frac) (ventana : List Char)
  | patronRe (descripcion : String)
deriving DecidableEq, Repr

/-- Python `p in t` on strings: substring containment. -/
def contieneSub (p t : List Char) : Bool :=
  (List.range (t.length + 1)).any fun i => (t.drop i).take p.length == p

/-- `PALABRAS_CRITICAS` from the source. -/
def PALABRAS_CRITICAS : List String :=
  ["suicidio", "suicidarme", "suicida", "matarme", "matar me"]

/-- `FRASES_EXTREMAS` from the source. -/
def FRASES_EXTREMAS : List String :=
  ["quitarme la vida", "quitar me la vida",
   "terminar con mi vida", "terminar con todo",
   "acabar con mi vida", "acabar conmigo",
   "no quiero vivir", "ya no quiero vivir", "no quiero vivir mas",
   "quiero morir", "quiero morirme",
   "planeo morir", "voy a morir",
   "no quiero existir", "ya no quiero existir",
   "no quiero estar aqui", "no quiero estar aca",
   "quiero desaparecer", "quisiera desaparecer",
   "ojala no despertara", "ojala no despertar", "ojala no despierto",
   "ojala no existiera", "ojala no existir",
   "preferiria estar muerto", "preferiria estar muerta",
   "preferiria no vivir", "prefiero no vivir",
   "prefiero estar muerto", "prefiero estar muerta",
   "no quiero seguir viviendo", "ya no quiero seguir viviendo",
   "no puedo seguir viviendo", "ya no puedo seguir viviendo",
   "no quiero esta vida", "ya no quiero esta vida",
   "mi vida no tiene sentido", "no le veo sentido a mi vida",
   "no veo razon para vivir", "no hay razon para vivir",
   "no vale la pena vivir",
   "pensando en matarme", "pienso en matarme",
   "estoy listo para morir", "estoy lista para morir",
   "ya tome la decision",
   "no puedo mas con mi vida", "no puedo mas vivir",
   "cansado de vivir", "cansada de vivir",
   "ya no deseo vivir", "no deseo vivir",
   "quiero dejar de existir", "dejar de existir",
   "quiero que todo termine", "quiero que mi vida termine",
   "no quiero seguir asi", "ya no quiero seguir asi"]

/-- `FRASES_EXTREMAS_NORM = [norm(f) for f in FRASES_EXTREMAS]`. -/
def FRASES_EXTREMAS_NORM : List (List Char) :=
  FRASES_EXTREMAS.map fun f => norm f.data

/-- `PALABRAS_CRITICAS_NORM = [norm(p) for p in PALABRAS_CRITICAS]`. -/
def PALABRAS_CRITICAS_NORM : List (List Char) :=
  PALABRAS_CRITICAS.map fun p => norm p.data

/-- `buscar_con_typos` from the source: slide a window of the pattern's word
count over the text's whitespace tokens and record every window whose
similarity ratio reaches the threshold. -/
def buscar_con_typos (texto : List Char) (patrones : List (List Char)) (umbral : Frac) :
    List Evidencia :=
  let palabras_texto := divide texto
  patrones.foldl (fun encontradas patron =>
    let palabras_patron := divide patron
    let n_patron := palabras_patron.length
    (List.range
        (if n_patron ≤ palabras_texto.length then
          palabras_texto.length - n_patron + 1
        else 0)).foldl
      (fun enc i =>
        let ventana := List.intercalate [' '] ((palabras_texto.drop i).take n_patron)
        let sim := similitud ventana patron
        if Frac.fle umbral sim then enc ++ [Evidencia.fuzzy patron sim ventana] else enc)
      encontradas) []

/-- Nondeterministic regex fragment: maps an input to the list of possible
remainders after matching a prefix. -/
def Matcher : Type := List Char → List (List Char)

/-- Empty regex fragment (matches the empty string). -/
def mNada : Matcher := fun s => [s]

/-- Single character of a class. -/
def mClase (p : Char → Bool) : Matcher := fun s =>
  match s with
  | [] => []
  | c :: r => if p c then [r] else []

/-- Concatenation of fragments. -/
def mSec (m₁ m₂ : Matcher) : Matcher := fun s => (m₁ s).flatMap m₂

/-- Alternation of fragments. -/
def mAlt (m₁ m₂ : Matcher) : Matcher := fun s => m₁ s ++ m₂ s

/-- Optional fragment (`(...)?`). -/
def mOpc (m : Matcher) : Matcher := mAlt m mNada

/-- Literal string fragment. -/
def mLit (p : List Char) : Matcher := fun s =>
  if s.take p.length == p then [s.drop p.length] else []

/-- Suffixes obtained by consuming zero or more leading characters of a class
(the possible continuations of `class*`). -/
def sufijosClase (p : Char → Bool) : List Char → List (List Char)
  | [] => [[]]
  | c :: r => (c :: r) :: (if p c then sufijosClase p r else [])

/-- Kleene star over a character class (`class*`). -/
def mEstrella (p : Char → Bool) : Matcher := fun s => sufijosClase p s

/-- One or more characters of a class (`class+`). -/
def mMas (p : Char → Bool) : Matcher := mSec (mClase p) (mEstrella p)

/-- Up to `n` characters of a class (`class{0,n}`). -/
def mHasta : Nat → (Char → Bool) → Matcher
  | 0, _ => mNada
  | n + 1, p => fun s =>
    s :: (match s with
          | [] => []
          | c :: r => if p c then mHasta n p r else [])

/-- Chain of fragments in sequence. -/
def mCad (xs : List Matcher) : Matcher := xs.foldr mSec mNada

/-- Regex class `[a-z]`. -/
def esLetraMin (c : Char) : Bool := 'a' ≤ c && c ≤ 'z'

/-- Regex class `\w`, on the ASCII repertoire of the normalized text. -/
def esPalabraChar (c : Char) : Bool := c.isAlphanum || c == '_'

/-- Compiled pattern: a matcher for the body after the leading `\b` (every
pattern in the catalog starts with `\b`), plus whether a trailing `\b` must
hold. -/
structure PatronRe where
  m : Matcher
  bordeFin : Bool

/-- Whether position `i` of `t` carries a word character. -/
def enPalabra (t : List Char) (i : Nat) : Bool :=
  match t.get? i with
  | some c => esPalabraChar c
  | none => false

/-- Python regex `\b` at position `i` of `t`. -/
def borde (t : List Char) (i : Nat) : Bool :=
  (if i = 0 then false else enPalabra t (i - 1)) != enPalabra t i

/-- Python `re.search` for a catalog pattern: some start position satisfies
the leading `\b`, the body matches a prefix there, and the trailing `\b`
(when the pattern has one) holds at the end position. -/
def reBusca (p : PatronRe) (t : List Char) : Bool :=
  (List.range (t.length + 1)).any fun i =>
    borde t i && (p.m (t.drop i)).any fun r =>
      !p.bordeFin || borde t (t.length - r.length)

/-- `patrones_criticos` from the source, each regex hand-compiled to a
matcher (in order: the eight `(pattern, label)` pairs of the code). -/
def patrones_criticos : List (PatronRe × String) :=
  [(⟨mCad [mLit "no".data, mMas esEspacio, mHasta 2 esLetraMin, mLit "quiero".data,
           mMas esEspacio, mLit "vivir".data], false⟩, "no quiero vivir"),
   (⟨mCad [mHasta 2 esLetraMin, mLit "quiero".data, mMas esEspacio, mLit "morir".data],
     false⟩, "quiero morir"),
   (⟨mCad [mLit "no".data, mMas esEspacio, mHasta 2 esLetraMin, mLit "quiero".data,
           mMas esEspacio, mLit "estar".data, mMas esEspacio,
           mAlt (mLit "aqui".data) (mLit "aca".data)], false⟩, "no quiero estar aquí"),
   (⟨mCad [mLit "no".data, mMas esEspacio, mHasta 2 esLetraMin, mLit "quiero".data,
           mMas esEspacio, mLit "existir".data], false⟩, "no quiero existir"),
   (⟨mCad [mLit "termin".data, mAlt (mLit "ar".data) (mLit "o".data), mMas esEspacio,
           mOpc (mCad [mLit "con".data, mMas esEspacio]),
           mAlt (mCad [mLit "mi".data, mMas esEspacio, mLit "vida".data])
                (mLit "todo".data)], false⟩, "terminar con mi vida"),
   (⟨mCad [mLit "acab".data, mAlt (mLit "ar".data) (mLit "o".data), mMas esEspacio,
           mOpc (mCad [mLit "con".data, mMas esEspacio]),
           mAlt (mCad [mLit "mi".data, mMas esEspacio, mLit "vida".data])
                (mLit "conmigo".data)], false⟩, "acabar con mi vida"),
   (⟨mCad [mHasta 2 esLetraMin, mLit "matar".data, mEstrella esEspacio, mLit "me".data],
     true⟩, "matarme"),
   (⟨mCad [mLit "quit".data, mAlt (mLit "ar".data) (mLit "o".data), mEstrella esEspacio,
           mLit "me".data, mMas esEspacio, mLit "la".data, mMas esEspacio,
           mLit "vida".data], false⟩, "quitarme la vida")]

/-- `frases_criticas_principales`, the curated fuzzy-tier subset from the
source. -/
def frases_criticas_principales : List (List Char) :=
  ["no quiero vivir".data,
   "no quiero vivir mas".data,
   "quiero morir".data,
   "me quiero matar".data,
   "no quiero existir".data,
   "no quiero estar aqui".data,
   "terminar con mi vida".data,
   "acabar con mi vida".data,
   "quitarme la vida".data]

/-- `contiene_contenido_extremo` from the source: exact critical keywords,
exact catalog phrases, a fuzzy tier only when the exact tiers found nothing,
and the regex tier always. -/
def contiene_contenido_extremo (texto_normalizado : List Char) : Bool × List Evidencia :=
  let enc1 := PALABRAS_CRITICAS_NORM.foldl
    (fun enc p => if contieneSub p texto_normalizado then enc ++ [Evidencia.critico p] else enc)
    []
  let enc2 := FRASES_EXTREMAS_NORM.foldl
    (fun enc f => if contieneSub f texto_normalizado then enc ++ [Evidencia.frase f] else enc)
    enc1
  let enc3 :=
    if enc2.isEmpty then
      let cf := buscar_con_typos texto_normalizado frases_criticas_principales ⟨85, 100⟩
      if cf.isEmpty then enc2 else (enc2 ++ [Evidencia.fuzzyHeader]) ++ cf
    else enc2
  let enc4 := patrones_criticos.foldl
    (fun enc pd => if reBusca pd.1 texto_normalizado then enc ++ [Evidencia.patronRe pd.2] else enc)
    enc3
  (decide (0 < enc4.length), enc4)

/-- Evidence produced by the exact critical-keyword tier alone. -/
def nivelPalabras (t : List Char) : List Evidencia :=
  PALABRAS_CRITICAS_NORM.filterMap fun p =>
    if contieneSub p t then some (Evidencia.critico p) else none

/-- Evidence produced by the exact phrase tier alone. -/
def nivelFrases (t : List Char) : List Evidencia :=
  FRASES_EXTREMAS_NORM.filterMap fun f =>
    if contieneSub f t then some (Evidencia.frase f) else none

/-- Evidence produced by the fuzzy tier alone (header plus matches, when any). -/
def nivelFuzzy (t : List Char) : List Evidencia :=
  let cf := buscar_con_typos t frases_criticas_principales ⟨85, 100⟩
  if cf.isEmpty then [] else Evidencia.fuzzyHeader :: cf

/-- Evidence produced by the regex tier alone. -/
def nivelRegex (t : List Char) : List Evidencia :=
  patrones_criticos.filterMap fun pd =>
    if reBusca pd.1 t then some (Evidencia.patronRe pd.2) else none

/-- `LEXICO["pos"]` from the source. -/
def LEXICO_pos : List (List Char) :=
  (["feliz", "alegre", "contento", "tranquilo", "bien", "optimista",
    "esperanza", "motivado", "amor", "paz", "gratitud", "confianza",
    "energia", "entusiasmo", "satisfecho", "orgulloso", "genial",
    "excelente", "maravilloso", "fantastico", "increible", "mejor"] :
    List String).map String.data

/-- `LEXICO["neg"]` from the source. -/
def LEXICO_neg : List (List Char) :=
  (["triste", "mal", "fatal", "horrible", "enojado", "rabia", "derrotado",
    "estresado", "ansioso", "desesperado", "vacio", "solo", "perdido",
    "agobiado", "abrumado", "miedo", "panico", "culpa", "verguenza",
    "deprimido", "preocupado", "frustrado", "dolor", "sufrimiento"] :
    List String).map String.data

/-- `LEXICO["neutro"]` from the source. -/
def LEXICO_neutro : List (List Char) :=
  (["normal", "regular", "equilibrado", "estable", "ok", "ahi",
    "igual", "comun", "nada especial", "sin mas", "neutral"] :
    List String).map String.data

/-- `senti_es` from the source: lexicon polarity score over whitespace
tokens, with the explicit-neutrality override and the length-scaled divisor. -/
def senti_es (t : List Char) : Frac :=
  let palabras := divide t
  if palabras.isEmpty then ⟨0, 1⟩
  else
    let r := palabras.foldl
      (fun (acc : ℤ × Bool) w =>
        if LEXICO_pos.contains w then (acc.1 + 1, acc.2)
        else if LEXICO_neg.contains w then (acc.1 - 1, acc.2)
        else if LEXICO_neutro.contains w then (acc.1, true)
        else acc)
      (0, false)
    let p := r.1
    if r.2 ∧ p.natAbs ≤ 1 then ⟨0, 1⟩
    else if p = 0 then ⟨0, 1⟩
    else
      let factor := Frac.fmax ⟨5, 1⟩ (Frac.div ⟨(palabras.length : ℤ), 1⟩ ⟨3, 1⟩)
      Frac.fmax ⟨-1, 1⟩ (Frac.fmin ⟨1, 1⟩ (Frac.div ⟨p, 1⟩ factor))

/-- Python truthiness of `not texto or not texto.strip()`. -/
def esBlanco (texto : List Char) : Bool :=
  texto.isEmpty || (recorta texto).isEmpty

/-- The sentiment dictionary.  `detectar_nivel_riesgo` accepts arbitrary,
possibly partially-computed dictionaries, read through `dict.get`; absent
keys are `none`. -/
structure Analisis where
  clasificacion : Option String
  puntuacion_compuesta : Option Frac
  contenido_extremo : Option (List Evidencia)
deriving DecidableEq, Repr

/-- Combined score of `analizar_nota`:
`(vader_score * 0.4) + (lexico_score * 0.6)`. -/
def ponderacion (vader_score lexico_score : Frac) : Frac :=
  Frac.add (Frac.mul vader_score ⟨4, 10⟩) (Frac.mul lexico_score ⟨6, 10⟩)

/-- `analizar_nota` from the source, parameterised by the External Polarity
Collaborator (`sia.polarity_scores(texto)["compound"]`, or the constant 0
when `sia` is `None`), which receives the raw text. -/
def analizar_nota (vader : List Char → Frac) (texto : List Char) : Analisis :=
  if esBlanco texto then
    ⟨some "NEUTRO", some ⟨0, 1⟩, some []⟩
  else
    let t := norm texto
    let res := contiene_contenido_extremo t
    if res.1 then
      ⟨some "EXTREMO", some ⟨-1, 1⟩, some res.2⟩
    else
      let punt := ponderacion (vader texto) (senti_es t)
      if Frac.fle ⟨1, 10⟩ punt then ⟨some "POSITIVO", some (Frac.round3 punt), some []⟩
      else if Frac.fle punt ⟨-1, 10⟩ then ⟨some "NEGATIVO", some (Frac.round3 punt), some []⟩
      else ⟨some "NEUTRO", some (Frac.round3 ⟨0, 1⟩), some []⟩

/-- Reasons accumulated by the risk classifier: fixed labels, quoted evidence
entries (`  → {coincidencia}`), and the quoted medium-risk phrase. -/
inductive Motivo where
  | etiqueta (s : String)
  | cita (e : Evidencia)
  | fraseMedia (f : List Char)
deriving DecidableEq, Repr

/-- `frases_medio_riesgo`, the inline medium-risk list of
`detectar_nivel_riesgo` — written exactly as in the source, where four
entries carry accents and the list is NOT normalized. -/
def frases_medio_riesgo : List (List Char) :=
  (["no quiero seguir", "quisiera desaparecer", "estoy cansado de todo",
    "me siento vacío", "no encuentro sentido", "estoy agotado", "no puedo más",
    "me siento perdido", "todo está mal", "no sé qué hacer"] :
    List String).map String.data

/-- `detectar_nivel_riesgo` from the source: blank guard, the two HIGH
branches (EXTREME classification, then the direct detector re-check), the
medium-risk phrase scan, and the LOW default. -/
def detectar_nivel_riesgo (texto : List Char) (analisis : Analisis) :
    String × List Motivo × Nat :=
  if esBlanco texto then
    ("BAJO", [], 1)
  else
    let t := norm texto
    if analisis.clasificacion = some "EXTREMO" then
      let motivos := [Motivo.etiqueta "⚠️  IDEACIÓN SUICIDA DETECTADA"] ++
        (match analisis.contenido_extremo with
         | some l => if l.isEmpty then [] else (l.take 3).map Motivo.cita
         | none => [])
      ("ALTO", motivos, 3)
    else
      let res := contiene_contenido_extremo t
      if res.1 then
        ("ALTO", [Motivo.etiqueta "⚠️  CONTENIDO DE ALTO RIESGO"] ++
          (res.2.take 3).map Motivo.cita, 3)
      else
        match frases_medio_riesgo.find? (fun frase => contieneSub frase t) with
        | some frase =>
          ("MEDIO", [Motivo.etiqueta "⚠️  FRASES DE RIESGO MEDIO DETECTADAS",
                     Motivo.fraseMedia frase], 2)
        | none =>
          ("BAJO", [Motivo.etiqueta "✅  Sin indicadores de riesgo significativos detectados."], 1)

/-- `generar_recomendacion` from the source (texts abbreviated to their
identifying head line; the claims only depend on the level → text mapping
being a pure lookup). -/
def generar_recomendacion (nivel_riesgo : String) : String :=
  if nivel_riesgo = "ALTO" then "🚨 ACCIÓN INMEDIATA REQUERIDA"
  else if nivel_riesgo = "MEDIO" then "⚠️  ATENCIÓN RECOMENDADA"
  else if nivel_riesgo = "BAJO" then "✓ SEGUIMIENTO NORMAL"
  else ""

/-- `analisis_completo` from the source: run the sentiment classifier, feed
its result to the risk classifier, and look up the recommendation. -/
def analisis_completo (vader : List Char → Frac) (texto : List Char) :
    Analisis × (String × List Motivo × Nat) × String :=
  let analisis := analizar_nota vader texto
  let riesgo := detectar_nivel_riesgo texto analisis
  (analisis, riesgo, generar_recomendacion riesgo.1)

/-- Polarity contribution of one token, as the spec words it. -/
def valorToken (w : List Char) : ℤ :=
  if LEXICO_pos.contains w then 1 else if LEXICO_neg.contains w then -1 else 0

/-- Lexicon Polarity Scorer as worded by the spec (§4.2): sum of ±1 token
contributions, neutral flag from the neutral set, neutrality override on a
weak signal, zero on zero sum, else the sum over `max(5, tokenCount/3)`
clamped to [-1, 1]. -/
def senti_es_spec (t : List Char) : Frac :=
  let toks := divide t
  let p := (toks.map valorToken).sum
  let flag := toks.any fun w => LEXICO_neutro.contains w
  if flag ∧ p.natAbs ≤ 1 then ⟨0, 1⟩
  else if p = 0 then ⟨0, 1⟩
  else
    Frac.fmax ⟨-1, 1⟩ (Frac.fmin ⟨1, 1⟩ (Frac.div ⟨p, 1⟩
      (Frac.fmax ⟨5, 1⟩ (Frac.div ⟨(toks.length : ℤ), 1⟩ ⟨3, 1⟩))))

/-- A character bearing a combining mark: its canonical decomposition
contains a category-Mn character (this covers both precomposed accented
letters and bare combining marks). -/
def esAcentuado (c : Char) : Bool := (nfd c).any esMn

/-- The four accented entries of the inline medium-risk list of
`detectar_nivel_riesgo`. -/
def frasesAcentuadas : List (List Char) :=
  (["me siento vacío", "no puedo más", "todo está mal", "no sé qué hacer"] :
    List String).map String.data

/-- Base character of a canonical decomposition (its first character). -/
def nfdCore (a : Char) : Char := (nfd a).headD a

/-- No run of three or more equal characters other than newlines: the shape
`colapsaRepes` leaves behind and keeps fixed. -/
def buenasRepes : List Char → Prop
  | a :: b :: c :: rest => (a = b → b = c → a = '\n') ∧ buenasRepes (b :: c :: rest)
  | _ => True

/-- All whitespace is a single plain space and no two whitespace characters
are adjacent: the shape `colapsaEspacios` leaves behind and keeps fixed. -/
def buenosEspacios : List Char → Prop
  | a :: b :: rest =>
    (esEspacio a = true → a = ' ') ∧ ¬(esEspacio a = true ∧ esEspacio b = true) ∧
      buenosEspacios (b :: rest)
  | [a] => esEspacio a = true → a = ' '
  | [] => True

/-! ### Helper lemmas -/

theorem busca_mem {α : Type} (c : Char) (l : List (Char × α)) (v : α)
    (h : busca c l = some v) : (c, v) ∈ l := by
  induction l with
  | nil => simp [busca] at h
  | cons p rest ih =>
    rcases p with ⟨k, w⟩
    simp only [busca] at h
    split at h
    · rename_i he
      cases h
      subst he
      exact List.mem_cons_self _ _
    · exact List.mem_cons_of_mem _ (ih h)

theorem minuscula_espacio {c : Char} (h : esEspacio c = true) : minuscula c = c := by
  unfold minuscula
  cases hb : busca c tablaMinusculas with
  | none => rfl
  | some v =>
    have hm := busca_mem c _ v hb
    have hk : ∀ p ∈ tablaMinusculas, esEspacio p.1 = false := by decide
    have := hk _ hm
    simp only at this
    rw [h] at this
    cases this

theorem recorta_nil {t : List Char} (h : recorta t = []) : ∀ c ∈ t, esEspacio c = true := by
  unfold recorta at h
  have h1 : (t.dropWhile esEspacio).reverse.dropWhile esEspacio = [] := by
    cases he : (t.dropWhile esEspacio).reverse.dropWhile esEspacio with
    | nil => rfl
    | cons a l => rw [he] at h; simp at h
  have h2 : ∀ c ∈ (t.dropWhile esEspacio).reverse, esEspacio c = true :=
    List.dropWhile_eq_nil_iff.mp h1
  have h3 : ∀ c ∈ t.dropWhile esEspacio, esEspacio c = true := by
    intro c hc
    exact h2 c (List.mem_reverse.mpr hc)
  intro c hc
  rw [← List.takeWhile_append_dropWhile (p := esEspacio) (l := t)] at hc
  rcases List.mem_append.mp hc with h4 | h4
  · exact List.mem_takeWhile_imp h4
  · exact h3 c h4

theorem norm_blanco {t : List Char} (hb : esBlanco t = true) : norm t = [] := by
  unfold esBlanco at hb
  simp only [Bool.or_eq_true] at hb
  rcases hb with he | he
  · have : t = [] := by
      cases t with
      | nil => rfl
      | cons a l => simp at he
    subst this
    rfl
  · have hr : recorta t = [] := by
      cases hx : recorta t with
      | nil => rfl
      | cons a l => rw [hx] at he; simp at he
    have hall := recorta_nil hr
    have hmap : t.map minuscula = t := by
      conv_rhs => rw [← List.map_id t]
      exact List.map_congr_left fun c hc => minuscula_espacio (hall c hc)
    have hdrop : (t.map minuscula).dropWhile esEspacio = [] := by
      rw [hmap]
      exact List.dropWhile_eq_nil_iff.mpr hall
    unfold norm recorta
    rw [hdrop]
    rfl

theorem contiene_nil : contiene_contenido_extremo [] = (false, []) := by decide

theorem extremo_noBlanco {t : List Char}
    (h : (contiene_contenido_extremo (norm t)).1 = true) : esBlanco t = false := by
  by_contra hb
  have hb' : esBlanco t = true := by
    cases hx : esBlanco t
    · exact absurd hx hb
    · rfl
  rw [norm_blanco hb', contiene_nil] at h
  cases h

/-! ### C10 -/

/-- C10: for every input text and every sentiment argument, the level and
severity returned by `detectar_nivel_riesgo` are paired monotonically:
ALTO with 3, MEDIO with 2, BAJO with 1, and no other pairing is producible. -/
theorem c10_severidad_monotona (texto : List Char) (an : Analisis) :
    ((detectar_nivel_riesgo texto an).1 = "ALTO" ∧ (detectar_nivel_riesgo texto an).2.2 = 3) ∨
    ((detectar_nivel_riesgo texto an).1 = "MEDIO" ∧ (detectar_nivel_riesgo texto an).2.2 = 2) ∨
    ((detectar_nivel_riesgo texto an).1 = "BAJO" ∧ (detectar_nivel_riesgo texto an).2.2 = 1) := by
  by_cases hb : esBlanco texto = true
  · right; right; simp [detectar_nivel_riesgo, hb]
  · by_cases he : an.clasificacion = some "EXTREMO"
    · left; simp [detectar_nivel_riesgo, hb, he]
    · by_cases hc : (contiene_contenido_extremo (norm texto)).1 = true
      · left; simp [detectar_nivel_riesgo, hb, he, hc]
      · cases hf : frases_medio_riesgo.find? (fun frase => contieneSub frase (norm texto)) with
        | some frase => right; left; simp [detectar_nivel_riesgo, hb, he, hc, hf]
        | none => right; right; simp [detectar_nivel_riesgo, hb, he, hc, hf]

/-! ### C9 -/

/-- C9: empty or all-whitespace input is never an error: the Sentiment
Classifier returns NEUTRO with score 0 and empty evidence, and the Risk
Classifier returns BAJO with no reasons and severity 1, for every sentiment
argument and every collaborator. -/
theorem c9_entrada_vacia (texto : List Char) (vader : List Char → Frac) (an : Analisis)
    (h : ∀ c ∈ texto, esEspacio c = true) :
    analizar_nota vader texto = ⟨some "NEUTRO", some ⟨0, 1⟩, some []⟩ ∧
    detectar_nivel_riesgo texto an = ("BAJO", [], 1) := by
  have hb : esBlanco texto = true := by
    unfold esBlanco recorta
    have h1 : texto.dropWhile esEspacio = [] := List.dropWhile_eq_nil_iff.mpr h
    rw [h1]
    simp
  constructor
  · unfold analizar_nota
    rw [if_pos hb]
  · unfold detectar_nivel_riesgo
    rw [if_pos hb]

/-- Witness for C9 at the all-whitespace input `"  "`. -/
theorem c9_entrada_vacia_testigo :
    analizar_nota (fun _ => ⟨0, 1⟩) "  ".data = ⟨some "NEUTRO", some ⟨0, 1⟩, some []⟩ ∧
    detectar_nivel_riesgo "  ".data ⟨none, none, none⟩ = ("BAJO", [], 1) :=
  c9_entrada_vacia "  ".data (fun _ => ⟨0, 1⟩) ⟨none, none, none⟩ (by decide)

/-! ### C1 -/

/-- C1: whenever the Phrase Detector matches the normalized text, the
Sentiment Classifier returns EXTREMO with compound score −1.0 (for every
collaborator), and the Risk Classifier returns ALTO with severity 3 for
every sentiment dictionary, the detector being re-run as an independent
safety net. -/
theorem c1_precedencia_extremo (texto : List Char) (vader : List Char → Frac) (an : Analisis)
    (h : (contiene_contenido_extremo (norm texto)).1 = true) :
    (analizar_nota vader texto).clasificacion = some "EXTREMO" ∧
    (analizar_nota vader texto).puntuacion_compuesta = some ⟨-1, 1⟩ ∧
    (detectar_nivel_riesgo texto an).1 = "ALTO" ∧
    (detectar_nivel_riesgo texto an).2.2 = 3 := by
  have hb : esBlanco texto = false := extremo_noBlanco h
  have han : analizar_nota vader texto =
      ⟨some "EXTREMO", some ⟨-1, 1⟩, some (contiene_contenido_extremo (norm texto)).2⟩ := by
    unfold analizar_nota
    rw [if_neg (by simp [hb])]
    simp only [h, if_true]
  have hdet : (detectar_nivel_riesgo texto an).1 = "ALTO" ∧
      (detectar_nivel_riesgo texto an).2.2 = 3 := by
    by_cases hc : an.clasificacion = some "EXTREMO"
    · constructor <;> simp [detectar_nivel_riesgo, hb, hc]
    · constructor <;> simp [detectar_nivel_riesgo, hb, hc, h]
  exact ⟨by rw [han], by rw [han], hdet.1, hdet.2⟩

/-- Witness for C1 at the input `"quiero morir"` (an exact catalog phrase),
an arbitrary collaborator and an empty sentiment dictionary. -/
theorem c1_precedencia_extremo_testigo :
    (analizar_nota (fun _ => ⟨0, 1⟩) "quiero morir".data).clasificacion = some "EXTREMO" ∧
    (analizar_nota (fun _ => ⟨0, 1⟩) "quiero morir".data).puntuacion_compuesta = some ⟨-1, 1⟩ ∧
    (detectar_nivel_riesgo "quiero morir".data ⟨none, none, none⟩).1 = "ALTO" ∧
    (detectar_nivel_riesgo "quiero morir".data ⟨none, none, none⟩).2.2 = 3 :=
  c1_precedencia_extremo "quiero morir".data (fun _ => ⟨0, 1⟩) ⟨none, none, none⟩ (by decide)

/-! ### C2 -/

/-- C2: the spec expects `"no puedo mas"` to reach MEDIO with severity 2 via
a normalized medium-risk catalog, but the inline list of
`detectar_nivel_riesgo` is not normalized: its only matching candidate is
the accented `"no puedo más"`, which never occurs in normalized text, so the
code returns BAJO with severity 1 on this input (under every collaborator
and every sentiment dictionary that is not already EXTREMO). -/
theorem c2_no_puedo_mas_es_bajo (vader : List Char → Frac) (an : Analisis)
    (h : an.clasificacion ≠ some "EXTREMO") :
    (analizar_nota vader "no puedo mas".data).clasificacion ≠ some "EXTREMO" ∧
    detectar_nivel_riesgo "no puedo mas".data an =
      ("BAJO", [Motivo.etiqueta "✅  Sin indicadores de riesgo significativos detectados."], 1) := by
  have hb : esBlanco "no puedo mas".data = false := by decide
  have hc : (contiene_contenido_extremo (norm "no puedo mas".data)).1 = false := by decide
  have hf : frases_medio_riesgo.find?
      (fun frase => contieneSub frase (norm "no puedo mas".data)) = none := by decide
  constructor
  · simp only [analizar_nota, hb, Bool.false_eq_true, if_false, hc]
    split
    · simp
    · split <;> simp
  · simp [detectar_nivel_riesgo, hb, h, hc, hf]

/-- Witness for C2's theorem: the full pipeline value at the failing input,
with the sentiment dictionary actually produced by `analizar_nota`. -/
theorem c2_no_puedo_mas_es_bajo_testigo :
    (analizar_nota (fun _ => ⟨0, 1⟩) "no puedo mas".data).clasificacion ≠ some "EXTREMO" ∧
    detectar_nivel_riesgo "no puedo mas".data
        (analizar_nota (fun _ => ⟨0, 1⟩) "no puedo mas".data) =
      ("BAJO", [Motivo.etiqueta "✅  Sin indicadores de riesgo significativos detectados."], 1) :=
  c2_no_puedo_mas_es_bajo (fun _ => ⟨0, 1⟩)
    (analizar_nota (fun _ => ⟨0, 1⟩) "no puedo mas".data) (by decide)

/-! ### C4 -/

theorem foldl_filtra {α β : Type} (f : α → β) (p : α → Bool) (l : List α)
    (init : List β) :
    l.foldl (fun acc x => if p x then acc ++ [f x] else acc) init
      = init ++ l.filterMap (fun x => if p x then some (f x) else none) := by
  induction l generalizing init with
  | nil => simp
  | cons x xs ih =>
    simp only [List.foldl_cons, List.filterMap_cons]
    by_cases hp : p x = true <;> simp [hp, ih]

/-- C4: the detector runs the fuzzy tier only when the exact keyword and
phrase tiers found nothing, always runs the regex tier, reports
`matched = true` iff the accumulated evidence is non-empty, and the evidence
is exactly the keyword tier's, then the phrase tier's, then the fuzzy
tier's, then the regex tier's entries, in discovery order. -/
theorem c4_estructura_detector (t : List Char) :
    (contiene_contenido_extremo t).2 =
      nivelPalabras t ++ nivelFrases t ++
        (if (nivelPalabras t ++ nivelFrases t).isEmpty then nivelFuzzy t else []) ++
        nivelRegex t ∧
    ((contiene_contenido_extremo t).1 = true ↔ (contiene_contenido_extremo t).2 ≠ []) := by
  have h2 : (contiene_contenido_extremo t).2 =
      nivelPalabras t ++ nivelFrases t ++
        (if (nivelPalabras t ++ nivelFrases t).isEmpty then nivelFuzzy t else []) ++
        nivelRegex t := by
    unfold contiene_contenido_extremo nivelPalabras nivelFrases nivelFuzzy nivelRegex
    simp only [foldl_filtra, List.nil_append]
    by_cases he :
        ((PALABRAS_CRITICAS_NORM.filterMap fun p =>
            if contieneSub p t then some (Evidencia.critico p) else none) ++
          FRASES_EXTREMAS_NORM.filterMap fun f =>
            if contieneSub f t then some (Evidencia.frase f) else none).isEmpty = true
    · have he' := List.isEmpty_iff.mp he
      by_cases hcf : (buscar_con_typos t frases_criticas_principales ⟨85, 100⟩).isEmpty = true
      · simp [he, he', hcf, List.isEmpty_iff.mp hcf]
      · simp [he, he', hcf]
    · simp [he]
  refine ⟨h2, ?_⟩
  have hfst : (contiene_contenido_extremo t).1 =
      decide (0 < (contiene_contenido_extremo t).2.length) := rfl
  rw [hfst]
  simp [List.length_pos]

/-! ### C7 -/

theorem neutro_disjunto (w : List Char) (hw : LEXICO_neutro.contains w = true) :
    LEXICO_pos.contains w = false ∧ LEXICO_neg.contains w = false := by
  have hm : w ∈ LEXICO_neutro := List.mem_of_elem_eq_true hw
  have hall : (LEXICO_neutro.all fun v =>
      (!LEXICO_pos.contains v) && (!LEXICO_neg.contains v)) = true := by decide
  have := List.all_eq_true.mp hall w hm
  simp only [Bool.and_eq_true, Bool.not_eq_true'] at this
  exact this

theorem senti_fold (l : List (List Char)) (acc : ℤ × Bool) :
    l.foldl
      (fun (acc : ℤ × Bool) w =>
        if LEXICO_pos.contains w then (acc.1 + 1, acc.2)
        else if LEXICO_neg.contains w then (acc.1 - 1, acc.2)
        else if LEXICO_neutro.contains w then (acc.1, true)
        else acc) acc
      = (acc.1 + (l.map valorToken).sum, acc.2 || l.any fun w => LEXICO_neutro.contains w) := by
  induction l generalizing acc with
  | nil => simp
  | cons w xs ih =>
    simp only [List.foldl_cons, List.map_cons, List.sum_cons, List.any_cons]
    by_cases hp : LEXICO_pos.contains w = true
    · have hn : LEXICO_neutro.contains w = false := by
        cases hx : LEXICO_neutro.contains w
        · rfl
        · have hd := (neutro_disjunto w hx).1
          rw [hp] at hd
          simp at hd
      have hv : valorToken w = 1 := by unfold valorToken; rw [if_pos hp]
      rw [if_pos hp, ih, hv, hn, Prod.mk.injEq]
      exact ⟨by omega, by rw [Bool.false_or]⟩
    · by_cases hg : LEXICO_neg.contains w = true
      · have hn : LEXICO_neutro.contains w = false := by
          cases hx : LEXICO_neutro.contains w
          · rfl
          · have hd := (neutro_disjunto w hx).2
            rw [hg] at hd
            simp at hd
        have hv : valorToken w = -1 := by
          unfold valorToken
          rw [if_neg hp, if_pos hg]
        rw [if_neg hp, if_pos hg, ih, hv, hn, Prod.mk.injEq]
        exact ⟨by omega, by rw [Bool.false_or]⟩
      · by_cases hu : LEXICO_neutro.contains w = true
        · have hv : valorToken w = 0 := by
            unfold valorToken
            rw [if_neg hp, if_neg hg]
          rw [if_neg hp, if_neg hg, if_pos hu, ih, hv, hu,
            Prod.mk.injEq]
          refine ⟨by omega, ?_⟩
          rw [Bool.true_or, Bool.or_true]
        · have hv : valorToken w = 0 := by
            unfold valorToken
            rw [if_neg hp, if_neg hg]
          rw [if_neg hp, if_neg hg, if_neg hu, ih, hv,
            Prod.mk.injEq]
          have hu' : LEXICO_neutro.contains w = false := by
            cases hx : LEXICO_neutro.contains w
            · rfl
            · exact absurd hx hu
          rw [hu']
          exact ⟨by omega, by rw [Bool.false_or]⟩

theorem val_cero : (⟨0, 1⟩ : Frac).val = 0 := by
  simp [Frac.val]

theorem val_lt_uno {a : Frac} (hd : 0 < a.den) (h : a.num < a.den) : a.val < 1 := by
  unfold Frac.val
  rw [div_lt_one (by exact_mod_cast hd)]
  exact_mod_cast h

theorem menos_uno_lt_val {a : Frac} (hd : 0 < a.den) (h : -a.den < a.num) : -1 < a.val := by
  unfold Frac.val
  rw [lt_div_iff₀ (by exact_mod_cast hd)]
  have h' : ((-a.den : ℤ) : ℚ) < ((a.num : ℤ) : ℚ) := by exact_mod_cast h
  push_cast at h' ⊢
  linarith

/-- C7: `senti_es` computes exactly the spec's description — token sum with
neutral flag, neutrality override on a weak signal, zero on zero sum, else
the sum over `max(5, tokenCount/3)` clamped — and its value always lies in
[-1, 1]. -/
theorem c7_senti_es (t : List Char) :
    senti_es t = senti_es_spec t ∧
    -1 ≤ (senti_es t).val ∧ (senti_es t).val ≤ 1 := by
  have heq : senti_es t = senti_es_spec t := by
    unfold senti_es senti_es_spec
    dsimp only
    rw [senti_fold]
    by_cases hp : (divide t).isEmpty = true
    · rw [List.isEmpty_iff.mp hp]
      simp
    · simp only [hp, Bool.false_eq_true, if_false, zero_add, Bool.false_or]
  refine ⟨heq, ?_⟩
  rw [heq]
  unfold senti_es_spec
  set toks := divide t
  set p := (toks.map valorToken).sum with hp
  by_cases h1 : ((toks.any fun w => LEXICO_neutro.contains w) ∧ p.natAbs ≤ 1)
  · rw [if_pos h1, val_cero]; norm_num
  · rw [if_neg h1]
    by_cases h2 : p = 0
    · rw [if_pos h2, val_cero]; norm_num
    · rw [if_neg h2]
      have hdiv3 : Frac.div ⟨(toks.length : ℤ), 1⟩ ⟨3, 1⟩ = ⟨(toks.length : ℤ), 3⟩ := by
        simp [Frac.div]
      rw [hdiv3]
      set factor := Frac.fmax ⟨5, 1⟩ ⟨(toks.length : ℤ), 3⟩ with hfac
      have hfnum : 0 < factor.num := by
        rw [hfac]
        unfold Frac.fmax Frac.fle
        split
        · norm_num
        · rename_i hle
          simp only [decide_eq_true_eq, not_le] at hle
          simp only
          omega
      have hq : Frac.div ⟨p, 1⟩ factor = ⟨p * factor.den, factor.num⟩ := by
        unfold Frac.div
        rw [if_pos (le_of_lt hfnum)]
        simp
      rw [hq]
      have hqden : (0 : ℤ) < (⟨p * factor.den, factor.num⟩ : Frac).den := hfnum
      by_cases hm : Frac.fle ⟨1, 1⟩ ⟨p * factor.den, factor.num⟩ = true
      · unfold Frac.fmin
        rw [if_pos hm]
        have hmx : Frac.fmax ⟨-1, 1⟩ ⟨1, 1⟩ = ⟨1, 1⟩ := by decide
        rw [hmx]
        constructor <;> norm_num [Frac.val]
      · unfold Frac.fmin
        rw [if_neg hm]
        have hlt : (⟨p * factor.den, factor.num⟩ : Frac).num <
            (⟨p * factor.den, factor.num⟩ : Frac).den := by
          simp only [Frac.fle, decide_eq_true_eq, not_le] at hm
          simp only
          omega
        by_cases hx : Frac.fle ⟨p * factor.den, factor.num⟩ ⟨-1, 1⟩ = true
        · unfold Frac.fmax
          rw [if_pos hx]
          constructor <;> norm_num [Frac.val]
        · unfold Frac.fmax
          rw [if_neg hx]
          have hgt : -(⟨p * factor.den, factor.num⟩ : Frac).den <
              (⟨p * factor.den, factor.num⟩ : Frac).num := by
            simp only [Frac.fle, decide_eq_true_eq, not_le] at hx
            simp only
            omega
          exact ⟨le_of_lt (menos_uno_lt_val hqden hgt), le_of_lt (val_lt_uno hqden hlt)⟩

/-! ### C6 -/

theorem div_tercio (L : ℤ) : Frac.div ⟨L, 1⟩ ⟨3, 1⟩ = ⟨L, 3⟩ := by
  unfold Frac.div
  rw [if_pos (by norm_num)]
  simp

theorem fmax_factor_num_pos (L : ℤ) : 0 < (Frac.fmax ⟨5, 1⟩ ⟨L, 3⟩).num := by
  unfold Frac.fmax Frac.fle
  split
  · norm_num
  · rename_i h
    simp only [decide_eq_true_eq, not_le] at h
    simp only
    omega

theorem clamp_den_pos (p L : ℤ) :
    0 < (Frac.fmax ⟨-1, 1⟩ (Frac.fmin ⟨1, 1⟩ (Frac.div ⟨p, 1⟩
      (Frac.fmax ⟨5, 1⟩ (Frac.div ⟨L, 1⟩ ⟨3, 1⟩))))).den := by
  rw [div_tercio]
  set F := Frac.fmax ⟨5, 1⟩ ⟨L, 3⟩ with hF
  have hfnum : 0 < F.num := fmax_factor_num_pos L
  have hq : Frac.div ⟨p, 1⟩ F = ⟨p * F.den, F.num⟩ := by
    unfold Frac.div
    rw [if_pos (le_of_lt hfnum)]
    simp
  rw [hq]
  unfold Frac.fmin Frac.fmax
  split
  · split <;> norm_num
  · split
    · norm_num
    · exact hfnum

theorem senti_den_pos (t : List Char) : 0 < (senti_es t).den := by
  unfold senti_es
  dsimp only
  split
  · norm_num
  · split
    · norm_num
    · split
      · norm_num
      · exact clamp_den_pos _ _

theorem pond_den_pos {a b : Frac} (ha : 0 < a.den) (hb : 0 < b.den) :
    0 < (ponderacion a b).den := by
  unfold ponderacion Frac.add Frac.mul
  simp only
  have h10 : (0 : ℤ) < 10 := by norm_num
  exact mul_pos (mul_pos ha h10) (mul_pos hb h10)

theorem fle_val {a b : Frac} (ha : 0 < a.den) (hb : 0 < b.den) :
    Frac.fle a b = true ↔ a.val ≤ b.val := by
  unfold Frac.fle Frac.val
  rw [div_le_div_iff₀ (by exact_mod_cast ha) (by exact_mod_cast hb)]
  simp only [decide_eq_true_eq]
  exact ⟨fun h => by exact_mod_cast h, fun h => by exact_mod_cast h⟩

/-- C6 (amended): on non-blank input with no extreme match, the Sentiment
Classifier computes the blend `0.4·externalScore(raw) + 0.6·lexiconScore
(normalized)` and classifies it against the ±0.1 thresholds — POSITIVO at
≥ 0.1, NEGATIVO at ≤ −0.1, otherwise NEUTRO with the score forced to the
exact value 0 — but the score it returns is the blend rounded to 3 decimal
places by Python's `round` (half to even), not the raw blend. -/
theorem c6_mezcla_umbrales (texto : List Char) (vader : List Char → Frac)
    (hden : 0 < (vader texto).den)
    (h1 : esBlanco texto = false)
    (h2 : (contiene_contenido_extremo (norm texto)).1 = false) :
    ((1 : ℚ)/10 ≤ (ponderacion (vader texto) (senti_es (norm texto))).val →
      analizar_nota vader texto =
        ⟨some "POSITIVO",
         some (Frac.round3 (ponderacion (vader texto) (senti_es (norm texto)))), some []⟩) ∧
    ((ponderacion (vader texto) (senti_es (norm texto))).val < (1 : ℚ)/10 →
      (ponderacion (vader texto) (senti_es (norm texto))).val ≤ -((1 : ℚ)/10) →
      analizar_nota vader texto =
        ⟨some "NEGATIVO",
         some (Frac.round3 (ponderacion (vader texto) (senti_es (norm texto)))), some []⟩) ∧
    (-((1 : ℚ)/10) < (ponderacion (vader texto) (senti_es (norm texto))).val →
      (ponderacion (vader texto) (senti_es (norm texto))).val < (1 : ℚ)/10 →
      analizar_nota vader texto = ⟨some "NEUTRO", some (Frac.round3 ⟨0, 1⟩), some []⟩ ∧
        (Frac.round3 ⟨0, 1⟩).val = 0) := by
  have hpden : 0 < (ponderacion (vader texto) (senti_es (norm texto))).den :=
    pond_den_pos hden (senti_den_pos _)
  have h110 : ((⟨1, 10⟩ : Frac)).val = (1 : ℚ)/10 := by norm_num [Frac.val]
  have hm110 : ((⟨-1, 10⟩ : Frac)).val = -((1 : ℚ)/10) := by norm_num [Frac.val]
  have hden110 : (0 : ℤ) < ((⟨1, 10⟩ : Frac)).den := by norm_num
  have hdenm110 : (0 : ℤ) < ((⟨-1, 10⟩ : Frac)).den := by norm_num
  refine ⟨?_, ?_, ?_⟩
  · intro hge
    have hfle : Frac.fle ⟨1, 10⟩ (ponderacion (vader texto) (senti_es (norm texto))) = true :=
      (fle_val hden110 hpden).mpr (by rw [h110]; exact hge)
    simp [analizar_nota, h1, h2, hfle]
  · intro hlt hle
    have hfle1 : Frac.fle ⟨1, 10⟩ (ponderacion (vader texto) (senti_es (norm texto))) = false := by
      cases hx : Frac.fle ⟨1, 10⟩ (ponderacion (vader texto) (senti_es (norm texto)))
      · rfl
      · have := (fle_val hden110 hpden).mp hx
        rw [h110] at this
        linarith
    have hfle2 : Frac.fle (ponderacion (vader texto) (senti_es (norm texto))) ⟨-1, 10⟩ = true :=
      (fle_val hpden hdenm110).mpr (by rw [hm110]; exact hle)
    simp [analizar_nota, h1, h2, hfle1, hfle2]
  · intro hgt hlt
    have hfle1 : Frac.fle ⟨1, 10⟩ (ponderacion (vader texto) (senti_es (norm texto))) = false := by
      cases hx : Frac.fle ⟨1, 10⟩ (ponderacion (vader texto) (senti_es (norm texto)))
      · rfl
      · have := (fle_val hden110 hpden).mp hx
        rw [h110] at this
        linarith
    have hfle2 : Frac.fle (ponderacion (vader texto) (senti_es (norm texto))) ⟨-1, 10⟩ = false := by
      cases hx : Frac.fle (ponderacion (vader texto) (senti_es (norm texto))) ⟨-1, 10⟩
      · rfl
      · have := (fle_val hpden hdenm110).mp hx
        rw [hm110] at this
        linarith
    refine ⟨by simp [analizar_nota, h1, h2, hfle1, hfle2], by norm_num [Frac.round3, Frac.rne, Frac.mul, Frac.val]⟩

/-- Witness for C6's amended theorem at `"feliz"` with a zero collaborator:
the blend is `0.12`, classified POSITIVO with score `round3(0.12)`. -/
theorem c6_mezcla_umbrales_testigo :
    analizar_nota (fun _ => ⟨0, 1⟩) "feliz".data =
      ⟨some "POSITIVO",
       some (Frac.round3 (ponderacion ((fun _ : List Char => (⟨0, 1⟩ : Frac)) "feliz".data)
         (senti_es (norm "feliz".data)))), some []⟩ := by
  refine (c6_mezcla_umbrales "feliz".data (fun _ => ⟨0, 1⟩) (by decide) (by decide) (by decide)).1 ?_
  have hP : ponderacion ((fun _ : List Char => (⟨0, 1⟩ : Frac)) "feliz".data)
      (senti_es (norm "feliz".data)) = ⟨60, 500⟩ := by decide
  rw [hP]
  norm_num [Frac.val]

/-- C6 as literally stated is false: the score `analizar_nota` returns is
`round(blend, 3)`, which differs from the blend itself whenever the blend
has more than three decimals — here blend `0.16936`, returned `0.169`. -/
theorem c6_contraejemplo :
    (analizar_nota (fun _ => ⟨1234, 10000⟩) "feliz".data).puntuacion_compuesta.map Frac.val ≠
      some (ponderacion ⟨1234, 10000⟩ (senti_es (norm "feliz".data))).val := by
  have h1 : (analizar_nota (fun _ => ⟨1234, 10000⟩) "feliz".data).puntuacion_compuesta =
      some ⟨169, 1000⟩ := by decide
  have h2 : ponderacion ⟨1234, 10000⟩ (senti_es (norm "feliz".data)) = ⟨846800, 5000000⟩ := by
    decide
  rw [h1, h2]
  simp only [Option.map_some', ne_eq, Option.some.injEq]
  norm_num [Frac.val]

/-! ### C5 -/

theorem foldl_invariante {γ δ : Type} (Q : δ → Prop) (g : List δ → γ → List δ) (l : List γ)
    (hg : ∀ acc x, (∀ e ∈ acc, Q e) → ∀ e ∈ g acc x, Q e) :
    ∀ init, (∀ e ∈ init, Q e) → ∀ e ∈ l.foldl g init, Q e := by
  induction l with
  | nil => intro init h; exact h
  | cons x xs ih => intro init h; exact ih (g init x) (hg init x h)

theorem similitud_den_pos (a b : List Char) : 0 < (similitud a b).den := by
  unfold similitud
  split
  · norm_num
  · rename_i h
    simp only
    omega

/-- Every entry the fuzzy search records is a fuzzy match whose similarity
value reaches the 0.85 threshold. -/
theorem buscar_umbral (t : List Char) (pats : List (List Char)) :
    ∀ e ∈ buscar_con_typos t pats ⟨85, 100⟩,
      ∃ pat s v, e = Evidencia.fuzzy pat s v ∧ (85/100 : ℚ) ≤ s.val := by
  unfold buscar_con_typos
  dsimp only
  refine foldl_invariante _ _ pats ?_ [] (by simp)
  intro acc pat hacc
  refine foldl_invariante _ _ _ ?_ acc hacc
  intro acc2 i hacc2 e he
  by_cases hc : Frac.fle ⟨85, 100⟩
      (similitud (List.intercalate [' '] (((divide t).drop i).take (divide pat).length)) pat) =
      true
  · rw [if_pos hc] at he
    rcases List.mem_append.mp he with h | h
    · exact hacc2 e h
    · have he' := List.mem_singleton.mp h
      subst he'
      refine ⟨pat, _, _, rfl, ?_⟩
      have hval := (fle_val (a := ⟨85, 100⟩) (by norm_num) (similitud_den_pos _ _)).mp hc
      have h85 : ((⟨85, 100⟩ : Frac)).val = (85 : ℚ)/100 := by norm_num [Frac.val]
      rw [h85] at hval
      exact hval
  · rw [if_neg hc] at he
    exact hacc2 e he

/-- C5: the one-character misspelling `"no quieor vivir mas"` is caught by
the fuzzy tier: no exact keyword or phrase matches, some fuzzy window
reaches similarity ≥ 0.85, the detector fires, and `analisis_completo`
classifies EXTREMO with risk ALTO severity 3, for every collaborator. -/
theorem c5_error_tipografico :
    nivelPalabras (norm "no quieor vivir mas".data) = [] ∧
    nivelFrases (norm "no quieor vivir mas".data) = [] ∧
    (∃ pat s v,
      Evidencia.fuzzy pat s v ∈ (contiene_contenido_extremo (norm "no quieor vivir mas".data)).2 ∧
      (85/100 : ℚ) ≤ s.val) ∧
    ∀ vader : List Char → Frac,
      (analisis_completo vader "no quieor vivir mas".data).1.clasificacion = some "EXTREMO" ∧
      (analisis_completo vader "no quieor vivir mas".data).2.1.1 = "ALTO" ∧
      (analisis_completo vader "no quieor vivir mas".data).2.1.2.2 = 3 := by
  refine ⟨by decide, by decide, ?_, ?_⟩
  · refine ⟨"no quiero vivir".data, ⟨28, 30⟩, "no quieor vivir".data, ?_, by norm_num [Frac.val]⟩
    decide
  · intro vader
    have hb : esBlanco "no quieor vivir mas".data = false := by decide
    have hc : (contiene_contenido_extremo (norm "no quieor vivir mas".data)).1 = true := by decide
    have han : analizar_nota vader "no quieor vivir mas".data =
        ⟨some "EXTREMO", some ⟨-1, 1⟩,
         some (contiene_contenido_extremo (norm "no quieor vivir mas".data)).2⟩ := by
      unfold analizar_nota
      rw [if_neg (by simp [hb])]
      simp only [hc, if_true]
    refine ⟨?_, ?_, ?_⟩
    · simp [analisis_completo, han]
    · simp [analisis_completo, han, detectar_nivel_riesgo, hb]
    · simp [analisis_completo, han, detectar_nivel_riesgo, hb]

/-! ### C3 -/

theorem mem_colapsaEspaciosGo {c : Char} :
    ∀ (fuel : Nat) (l : List Char), c ∈ colapsaEspaciosGo fuel l → c ∈ l ∨ c = ' ' := by
  intro fuel
  induction fuel with
  | zero =>
    intro l h
    cases l with
    | nil => simp [colapsaEspaciosGo] at h
    | cons a r => exact Or.inl h
  | succ n ih =>
    intro l h
    cases l with
    | nil => simp [colapsaEspaciosGo] at h
    | cons a r =>
      simp only [colapsaEspaciosGo] at h
      by_cases ha : esEspacio a = true
      · rw [if_pos ha] at h
        rcases List.mem_cons.mp h with h1 | h1
        · exact Or.inr h1
        · rcases ih _ h1 with h2 | h2
          · exact Or.inl (List.mem_cons_of_mem a ((List.dropWhile_sublist _).mem h2))
          · exact Or.inr h2
      · rw [if_neg ha] at h
        rcases List.mem_cons.mp h with h1 | h1
        · exact Or.inl (h1 ▸ List.mem_cons_self a r)
        · rcases ih _ h1 with h2 | h2
          · exact Or.inl (List.mem_cons_of_mem a h2)
          · exact Or.inr h2

theorem mem_colapsaEspacios {c : Char} {l : List Char} (h : c ∈ colapsaEspacios l) :
    c ∈ l ∨ c = ' ' :=
  mem_colapsaEspaciosGo l.length l h

theorem mem_colapsaRepesGo {c : Char} :
    ∀ (fuel : Nat) (l : List Char), c ∈ colapsaRepesGo fuel l → c ∈ l := by
  intro fuel
  induction fuel with
  | zero =>
    intro l h
    cases l with
    | nil => simp [colapsaRepesGo] at h
    | cons a r => exact h
  | succ n ih =>
    intro l h
    cases l with
    | nil => simp [colapsaRepesGo] at h
    | cons a r =>
      simp only [colapsaRepesGo] at h
      rcases List.mem_append.mp h with h1 | h1
      · split at h1
        · have := List.mem_singleton.mp h1
          exact this ▸ List.mem_cons_self a r
        · rcases List.mem_cons.mp h1 with h2 | h2
          · exact h2 ▸ List.mem_cons_self a r
          · exact List.mem_cons_of_mem a ((List.takeWhile_sublist _).mem h2)
      · exact List.mem_cons_of_mem a ((List.dropWhile_sublist _).mem (ih _ h1))

theorem mem_colapsaRepes {c : Char} {l : List Char} (h : c ∈ colapsaRepes l) : c ∈ l :=
  mem_colapsaRepesGo l.length l h

theorem nfd_no_acentuado {a c : Char} (hc : c ∈ nfd a) (hm : esMn c = false) :
    esAcentuado c = false := by
  unfold nfd at hc
  cases hb : busca a tablaNFD with
  | none =>
    rw [hb] at hc
    simp only [Option.getD_none, List.mem_singleton] at hc
    subst hc
    unfold esAcentuado nfd
    rw [hb]
    simp [hm]
  | some vs =>
    rw [hb] at hc
    simp only [Option.getD_some] at hc
    have hq := busca_mem a _ vs hb
    have hfin : ∀ q ∈ tablaNFD, ∀ d ∈ q.2, esMn d = true ∨ esAcentuado d = false := by decide
    rcases hfin _ hq c hc with h | h
    · rw [hm] at h; cases h
    · exact h

/-- Every character of a normalized text is free of combining marks. -/
theorem mem_norm_no_acentuado (t : List Char) : ∀ c ∈ norm t, esAcentuado c = false := by
  intro c hc
  unfold norm at hc
  rcases mem_colapsaEspacios hc with h1 | h1
  · have h2 := mem_colapsaRepes h1
    have h3 := List.mem_filter.mp h2
    have h4 := List.mem_flatMap.mp h3.1
    rcases h4 with ⟨b, _, hb2⟩
    have hm : esMn c = false := by
      have := h3.2
      cases hx : esMn c
      · rfl
      · rw [hx] at this; cases this
    exact nfd_no_acentuado hb2 hm
  · subst h1
    decide

theorem contieneSub_subset {p t : List Char} (h : contieneSub p t = true) :
    ∀ c ∈ p, c ∈ t := by
  unfold contieneSub at h
  rcases List.any_eq_true.mp h with ⟨i, _, hi⟩
  have hp : (t.drop i).take p.length = p := by
    exact eq_of_beq hi
  intro c hc
  rw [← hp] at hc
  exact List.drop_subset i t (List.take_subset _ _ hc)

/-- C3: normalization never leaves a combining-mark-bearing character, so
the four accented entries of the inline medium-risk list are never
substrings of a normalized text and can never be the phrase that produces a
MEDIO result. -/
theorem c3_frases_acentuadas_muertas (t : List Char) :
    (∀ c ∈ norm t, esAcentuado c = false) ∧
    (∀ f ∈ frasesAcentuadas, contieneSub f (norm t) = false) ∧
    (∀ (an : Analisis) (ms : List Motivo) (v : Nat),
      detectar_nivel_riesgo t an = ("MEDIO", ms, v) →
      ∀ f ∈ frasesAcentuadas, Motivo.fraseMedia f ∉ ms) := by
  have hsub : ∀ f ∈ frasesAcentuadas, contieneSub f (norm t) = false := by
    intro f hf
    cases hx : contieneSub f (norm t) with
    | false => rfl
    | true =>
      have hacc : (frasesAcentuadas.all fun f => f.any esAcentuado) = true := by decide
      have hany := List.all_eq_true.mp hacc f hf
      rcases List.any_eq_true.mp hany with ⟨c, hcf, hca⟩
      have hmem := contieneSub_subset hx c hcf
      have := mem_norm_no_acentuado t c hmem
      rw [hca] at this
      cases this
  refine ⟨mem_norm_no_acentuado t, hsub, ?_⟩
  intro an ms v hd f hf hmem
  by_cases hb : esBlanco t = true
  · simp [detectar_nivel_riesgo, hb] at hd
  · by_cases he : an.clasificacion = some "EXTREMO"
    · simp [detectar_nivel_riesgo, hb, he] at hd
    · by_cases hc : (contiene_contenido_extremo (norm t)).1 = true
      · simp [detectar_nivel_riesgo, hb, he, hc] at hd
      · cases hfind : frases_medio_riesgo.find? (fun frase => contieneSub frase (norm t)) with
        | none => simp [detectar_nivel_riesgo, hb, he, hc, hfind] at hd
        | some f0 =>
          simp only [detectar_nivel_riesgo, hb, Bool.false_eq_true, if_false, he, hc,
            hfind] at hd
          have hms : ms = [Motivo.etiqueta "⚠️  FRASES DE RIESGO MEDIO DETECTADAS",
              Motivo.fraseMedia f0] := by
            have := congrArg (fun x => x.2.1) hd
            simpa using this.symm
          rw [hms] at hmem
          rcases List.mem_cons.mp hmem with h1 | h1
          · cases h1
          · have h2 := List.mem_singleton.mp h1
            have hf0 : f = f0 := by
              injection h2
            have hfound := List.find?_some hfind
            rw [← hf0] at hfound
            rw [hsub f hf] at hfound
            cases hfound

/-- Witness for C3 at a text that does fire the MEDIO tier (via the
unaccented entry `"no quiero seguir"`): the dead accented phrase is neither
a substring of the normalized text nor among the produced reasons. -/
theorem c3_frases_acentuadas_muertas_testigo :
    contieneSub "me siento vacío".data (norm "me siento vacio y triste".data) = false ∧
    Motivo.fraseMedia "me siento vacío".data ∉
      (detectar_nivel_riesgo "no quiero seguir".data
        ⟨some "NEUTRO", some ⟨0, 1⟩, some []⟩).2.1 := by
  constructor
  · exact (c3_frases_acentuadas_muertas "me siento vacio y triste".data).2.1
      "me siento vacío".data (by decide)
  · exact (c3_frases_acentuadas_muertas "no quiero seguir".data).2.2
      ⟨some "NEUTRO", some ⟨0, 1⟩, some []⟩
      (detectar_nivel_riesgo "no quiero seguir".data
        ⟨some "NEUTRO", some ⟨0, 1⟩, some []⟩).2.1 2
      (by decide) "me siento vacío".data (by decide)

/-! ### C8: unfolding lemmas for the fueled workers -/

theorem colapsaRepesGo_fuel :
    ∀ (f1 f2 : Nat) (l : List Char), l.length ≤ f1 → l.length ≤ f2 →
      colapsaRepesGo f1 l = colapsaRepesGo f2 l := by
  intro f1
  induction f1 with
  | zero =>
    intro f2 l h1 _
    have hl : l = [] := List.length_eq_zero.mp (Nat.le_zero.mp h1)
    subst hl
    cases f2 <;> rfl
  | succ n ih =>
    intro f2 l h1 h2
    cases l with
    | nil => cases f2 <;> rfl
    | cons c rest =>
      cases f2 with
      | zero => simp at h2
      | succ m =>
        simp only [colapsaRepesGo]
        congr 1
        have hd : (rest.dropWhile (fun d => d = c)).length ≤ rest.length :=
          (List.dropWhile_sublist _).length_le
        exact ih m _ (by simp at h1; omega) (by simp at h2; omega)

theorem colapsaRepes_cons (c : Char) (rest : List Char) :
    colapsaRepes (c :: rest) =
      (if c ≠ '\n' ∧ 3 ≤ (rest.takeWhile (fun d => d = c)).length + 1 then [c]
       else c :: rest.takeWhile (fun d => d = c)) ++
      colapsaRepes (rest.dropWhile (fun d => d = c)) := by
  unfold colapsaRepes
  rw [List.length_cons]
  simp only [colapsaRepesGo]
  congr 1
  exact colapsaRepesGo_fuel rest.length _ _ (List.dropWhile_sublist _).length_le le_rfl

theorem colapsaEspaciosGo_fuel :
    ∀ (f1 f2 : Nat) (l : List Char), l.length ≤ f1 → l.length ≤ f2 →
      colapsaEspaciosGo f1 l = colapsaEspaciosGo f2 l := by
  intro f1
  induction f1 with
  | zero =>
    intro f2 l h1 _
    have hl : l = [] := List.length_eq_zero.mp (Nat.le_zero.mp h1)
    subst hl
    cases f2 <;> rfl
  | succ n ih =>
    intro f2 l h1 h2
    cases l with
    | nil => cases f2 <;> rfl
    | cons c rest =>
      cases f2 with
      | zero => simp at h2
      | succ m =>
        simp only [colapsaEspaciosGo]
        by_cases hc : esEspacio c = true
        · rw [if_pos hc, if_pos hc]
          congr 1
          exact ih m _
            (le_trans (List.dropWhile_sublist _).length_le (by simp at h1; omega))
            (le_trans (List.dropWhile_sublist _).length_le (by simp at h2; omega))
        · rw [if_neg hc, if_neg hc]
          congr 1
          exact ih m _ (by simp at h1; omega) (by simp at h2; omega)

theorem colapsaEspacios_cons (c : Char) (rest : List Char) :
    colapsaEspacios (c :: rest) =
      if esEspacio c = true then ' ' :: colapsaEspacios (rest.dropWhile esEspacio)
      else c :: colapsaEspacios rest := by
  unfold colapsaEspacios
  rw [List.length_cons]
  simp only [colapsaEspaciosGo]
  by_cases hc : esEspacio c = true
  · rw [if_pos hc, if_pos hc]
    congr 1
    exact colapsaEspaciosGo_fuel rest.length _ _ (List.dropWhile_sublist _).length_le le_rfl
  · rw [if_neg hc, if_neg hc]

/-! ### C8: shape of the collapse outputs -/

theorem colapsaRepes_head : ∀ (l : List Char), (colapsaRepes l).head? = l.head? := by
  intro l
  cases l with
  | nil => rfl
  | cons c rest =>
    rw [colapsaRepes_cons]
    split <;> rfl

theorem colapsaRepes_ne_nil {l : List Char} (h : l ≠ []) : colapsaRepes l ≠ [] := by
  cases l with
  | nil => exact absurd rfl h
  | cons c rest =>
    intro hcon
    have := colapsaRepes_head (c :: rest)
    rw [hcon] at this
    simp at this

theorem colapsaEspacios_ne_nil {l : List Char} (h : l ≠ []) : colapsaEspacios l ≠ [] := by
  cases l with
  | nil => exact absurd rfl h
  | cons c rest =>
    rw [colapsaEspacios_cons]
    split <;> simp

theorem getLast?_const {c : Char} : ∀ (run : List Char), (∀ d ∈ run, d = c) →
    (c :: run).getLast? = some c := by
  intro run
  induction run with
  | nil => intro _; rfl
  | cons d r ih =>
    intro h
    have hd : d = c := h d (List.mem_cons_self _ _)
    subst hd
    rw [List.getLast?_cons_cons]
    exact ih fun e he => h e (List.mem_cons_of_mem _ he)

theorem colapsaRepes_getLast : ∀ (l : List Char), (colapsaRepes l).getLast? = l.getLast? := by
  intro l
  generalize hn : l.length = n
  induction n using Nat.strong_induction_on generalizing l with
  | _ n ih =>
    cases l with
    | nil => rfl
    | cons c rest =>
      rw [colapsaRepes_cons]
      by_cases hr : rest.dropWhile (fun d => d = c) = []
      · have htake : rest.takeWhile (fun d => d = c) = rest := by
          have h0 := List.takeWhile_append_dropWhile (p := fun d => d = c) (l := rest)
          rw [hr, List.append_nil] at h0
          exact h0
        have hrest : ∀ d ∈ rest, d = c := by
          intro d hd
          rw [← htake] at hd
          have := List.mem_takeWhile_imp hd
          simpa using this
        have hlast : (c :: rest).getLast? = some c := getLast?_const rest hrest
        have hnil : colapsaRepes ([] : List Char) = [] := rfl
        rw [hr, hnil, List.append_nil, hlast]
        split
        · rfl
        · rw [htake]
          exact getLast?_const rest hrest
      · have hlen : (rest.dropWhile (fun d => d = c)).length < n := by
          have h1 : (rest.dropWhile (fun d => d = c)).length ≤ rest.length :=
            (List.dropWhile_sublist _).length_le
          have h2 : rest.length + 1 = n := by
            rw [← hn]; rfl
          omega
        have hrec := ih _ hlen (rest.dropWhile (fun d => d = c)) rfl
        rw [List.getLast?_append_of_ne_nil _ (colapsaRepes_ne_nil hr), hrec]
        have hsplit : c :: rest =
            (c :: rest.takeWhile (fun d => d = c)) ++ rest.dropWhile (fun d => d = c) := by
          rw [List.cons_append, List.takeWhile_append_dropWhile]
        rw [hsplit, List.getLast?_append_of_ne_nil _ hr]

theorem colapsaEspacios_head : ∀ (l : List Char),
    (colapsaEspacios l).head? = l.head?.map (fun c => if esEspacio c then ' ' else c) := by
  intro l
  cases l with
  | nil => rfl
  | cons c rest =>
    rw [colapsaEspacios_cons]
    by_cases hc : esEspacio c = true
    · rw [if_pos hc]
      simp [hc]
    · rw [if_neg hc]
      simp only [Bool.not_eq_true] at hc
      simp [hc]

theorem todos_espacios_getLast {l : List Char} {d : Char}
    (hall : ∀ e ∈ l, esEspacio e = true) (h : l.getLast? = some d) : esEspacio d = true :=
  hall d (List.mem_of_mem_getLast? (by simp [h]))

theorem colapsaEspacios_getLast : ∀ (l : List Char) (d : Char),
    l.getLast? = some d → esEspacio d = false →
    (colapsaEspacios l).getLast? = some d := by
  intro l
  generalize hn : l.length = n
  induction n using Nat.strong_induction_on generalizing l with
  | _ n ih =>
    intro d hlast hd
    cases l with
    | nil => simp at hlast
    | cons c rest =>
      rw [colapsaEspacios_cons]
      by_cases hc : esEspacio c = true
      · rw [if_pos hc]
        have hr : rest.dropWhile esEspacio ≠ [] := by
          intro hcon
          have hallrest : ∀ e ∈ rest, esEspacio e = true := by
            intro e he
            rw [← List.takeWhile_append_dropWhile (p := esEspacio) (l := rest), hcon,
              List.append_nil] at he
            exact List.mem_takeWhile_imp he
          have hall : ∀ e ∈ c :: rest, esEspacio e = true := by
            intro e he
            rcases List.mem_cons.mp he with h1 | h1
            · exact h1 ▸ hc
            · exact hallrest e h1
          have := todos_espacios_getLast hall hlast
          rw [hd] at this
          cases this
        have hlast' : (rest.dropWhile esEspacio).getLast? = some d := by
          have hsplit : c :: rest = (c :: rest.takeWhile esEspacio) ++ rest.dropWhile esEspacio := by
            rw [List.cons_append, List.takeWhile_append_dropWhile]
          rw [hsplit, List.getLast?_append_of_ne_nil _ hr] at hlast
          exact hlast
        have hlen : (rest.dropWhile esEspacio).length < n := by
          have h1 : (rest.dropWhile esEspacio).length ≤ rest.length :=
            (List.dropWhile_sublist _).length_le
          have h2 : rest.length + 1 = n := by rw [← hn]; rfl
          omega
        have hrec := ih _ hlen _ rfl d hlast' hd
        obtain ⟨x, xs, hX⟩ := List.exists_cons_of_ne_nil (colapsaEspacios_ne_nil hr)
        rw [hX, List.getLast?_cons_cons, ← hX]
        exact hrec
      · rw [if_neg hc]
        cases rest with
        | nil =>
          exact hlast
        | cons r0 rs =>
          rw [List.getLast?_cons_cons] at hlast
          have hlen : (r0 :: rs).length < n := by
            have h2 : (r0 :: rs).length + 1 = n := by rw [← hn]; rfl
            omega
          have hrec := ih _ hlen _ rfl d hlast hd
          obtain ⟨x, xs, hX⟩ :=
            List.exists_cons_of_ne_nil (colapsaEspacios_ne_nil (l := r0 :: rs) (by simp))
          rw [hX, List.getLast?_cons_cons, ← hX]
          exact hrec

/-! ### C8: the no-long-run invariant -/

theorem buenasRepes_tail {a : Char} {l : List Char} (h : buenasRepes (a :: l)) :
    buenasRepes l := by
  cases l with
  | nil => trivial
  | cons b r =>
    cases r with
    | nil => trivial
    | cons c r' => exact h.2

theorem buenasRepes_append_right :
    ∀ (pre suf : List Char), buenasRepes (pre ++ suf) → buenasRepes suf := by
  intro pre
  induction pre with
  | nil => intro suf h; exact h
  | cons a p ih => intro suf h; exact ih suf (buenasRepes_tail h)

theorem buenasRepes_cons {c : Char} {l : List Char} (h : buenasRepes l)
    (hh : l.head? ≠ some c) : buenasRepes (c :: l) := by
  cases l with
  | nil => trivial
  | cons b r =>
    cases r with
    | nil => trivial
    | cons d r' =>
      refine ⟨?_, h⟩
      intro h1 _
      exact absurd (by rw [h1]; rfl) hh

theorem buenasRepes_cons2 {c : Char} {l : List Char} (h : buenasRepes l)
    (hh : l.head? ≠ some c) : buenasRepes (c :: c :: l) := by
  cases l with
  | nil => trivial
  | cons b r =>
    refine ⟨?_, buenasRepes_cons h hh⟩
    intro _ hcb
    exact absurd (by rw [hcb]; rfl) hh

theorem buenasRepes_cons_nl {l : List Char} (h : buenasRepes l) :
    buenasRepes ('\n' :: l) := by
  cases l with
  | nil => trivial
  | cons b r =>
    cases r with
    | nil => trivial
    | cons d r' => exact ⟨fun _ _ => rfl, h⟩

theorem buenasRepes_replicate_nl :
    ∀ (n : Nat) (l : List Char), buenasRepes l →
      buenasRepes (List.replicate n '\n' ++ l) := by
  intro n
  induction n with
  | zero => intro l h; exact h
  | succ m ih =>
    intro l h
    rw [List.replicate_succ, List.cons_append]
    exact buenasRepes_cons_nl (ih l h)

theorem buenasRepes_colapsaRepes_id :
    ∀ (l : List Char), buenasRepes l → colapsaRepes l = l := by
  intro l
  generalize hn : l.length = n
  induction n using Nat.strong_induction_on generalizing l with
  | _ n ih =>
    intro h
    cases l with
    | nil => rfl
    | cons c rest =>
      rw [colapsaRepes_cons]
      split
      · rename_i hbig
        exfalso
        rcases hbig with ⟨hc, hlen⟩
        cases hrun : rest.takeWhile (fun d => d = c) with
        | nil => rw [hrun] at hlen; simp at hlen
        | cons r1 rt =>
          cases rt with
          | nil => rw [hrun] at hlen; simp at hlen
          | cons r2 rr =>
            have h1 : r1 = c := by
              have := List.mem_takeWhile_imp (l := rest)
                (p := fun d => d = c) (by rw [hrun]; exact List.mem_cons_self _ _)
              simpa using this
            have h2 : r2 = c := by
              have := List.mem_takeWhile_imp (l := rest)
                (p := fun d => d = c)
                (by rw [hrun]; exact List.mem_cons_of_mem _ (List.mem_cons_self _ _))
              simpa using this
            have hshape : rest = c :: c :: (rr ++ rest.dropWhile (fun d => d = c)) := by
              conv_lhs => rw [← List.takeWhile_append_dropWhile
                (p := fun d => d = c) (l := rest)]
              rw [hrun, h1, h2]
              simp
            rw [hshape] at h
            exact hc (h.1 rfl rfl)
      · have hsplit : (c :: rest.takeWhile (fun d => d = c)) ++
            rest.dropWhile (fun d => d = c) = c :: rest := by
          rw [List.cons_append, List.takeWhile_append_dropWhile]
        have hsuf : buenasRepes (rest.dropWhile (fun d => d = c)) := by
          have h' := h
          rw [← hsplit] at h'
          exact buenasRepes_append_right _ _ h'
        have hlen : (rest.dropWhile (fun d => d = c)).length < n := by
          have h1 : (rest.dropWhile (fun d => d = c)).length ≤ rest.length :=
            (List.dropWhile_sublist _).length_le
          have h2 : rest.length + 1 = n := by rw [← hn]; rfl
          omega
        rw [ih _ hlen _ rfl hsuf, hsplit]

theorem buenasRepes_colapsaRepes : ∀ (l : List Char), buenasRepes (colapsaRepes l) := by
  intro l
  generalize hn : l.length = n
  induction n using Nat.strong_induction_on generalizing l with
  | _ n ih =>
    cases l with
    | nil => trivial
    | cons c rest =>
      rw [colapsaRepes_cons]
      have hlen : (rest.dropWhile (fun d => d = c)).length < n := by
        have h1 : (rest.dropWhile (fun d => d = c)).length ≤ rest.length :=
          (List.dropWhile_sublist _).length_le
        have h2 : rest.length + 1 = n := by rw [← hn]; rfl
        omega
      have hrec := ih _ hlen (rest.dropWhile (fun d => d = c)) rfl
      have hhead : (colapsaRepes (rest.dropWhile (fun d => d = c))).head? ≠ some c := by
        rw [colapsaRepes_head]
        cases hd : (rest.dropWhile (fun d => d = c)).head? with
        | none => simp
        | some d =>
          have hnot := List.head?_dropWhile_not (fun d => d = c) rest
          rw [hd] at hnot
          simp only [Option.mem_def, Option.some.injEq, forall_eq'] at hnot
          intro hcon
          have : d = c := by injection hcon
          rw [this] at hnot
          simp at hnot
      split
      · rw [List.singleton_append]
        exact buenasRepes_cons hrec hhead
      · rename_i hsmall
        by_cases hc : c = '\n'
        · subst hc
          have hrepl : '\n' :: rest.takeWhile (fun d => d = '\n') =
              List.replicate ((rest.takeWhile (fun d => d = '\n')).length + 1) '\n' := by
            apply List.eq_replicate_iff.mpr
            refine ⟨by simp, ?_⟩
            intro b hb
            rcases List.mem_cons.mp hb with h1 | h1
            · exact h1
            · have := List.mem_takeWhile_imp h1
              simpa using this
          rw [hrepl]
          exact buenasRepes_replicate_nl _ _ hrec
        · have hrunlen : (rest.takeWhile (fun d => d = c)).length ≤ 1 := by
            by_contra hcon
            exact hsmall ⟨hc, by omega⟩
          cases hrun : rest.takeWhile (fun d => d = c) with
          | nil =>
            rw [List.cons_append, List.nil_append]
            exact buenasRepes_cons hrec hhead
          | cons r1 rt =>
            cases rt with
            | nil =>
              have h1 : r1 = c := by
                have := List.mem_takeWhile_imp (l := rest)
                  (p := fun d => d = c) (by rw [hrun]; exact List.mem_cons_self _ _)
                simpa using this
              subst h1
              rw [List.cons_append, List.singleton_append]
              exact buenasRepes_cons2 hrec hhead
            | cons r2 rr =>
              rw [hrun] at hrunlen
              simp at hrunlen

theorem buenasRepes_colapsaEspacios :
    ∀ (l : List Char), buenasRepes l → buenasRepes (colapsaEspacios l) := by
  intro l
  generalize hn : l.length = n
  induction n using Nat.strong_induction_on generalizing l with
  | _ n ih =>
    intro h
    cases l with
    | nil => trivial
    | cons c rest =>
      rw [colapsaEspacios_cons]
      by_cases hsp : esEspacio c = true
      · rw [if_pos hsp]
        have hsplit : rest.takeWhile esEspacio ++ rest.dropWhile esEspacio = rest :=
          List.takeWhile_append_dropWhile (p := esEspacio) (l := rest)
        have hsuf : buenasRepes (rest.dropWhile esEspacio) := by
          have h' := buenasRepes_tail h
          rw [← hsplit] at h'
          exact buenasRepes_append_right _ _ h'
        have hlen : (rest.dropWhile esEspacio).length < n := by
          have h1 : (rest.dropWhile esEspacio).length ≤ rest.length :=
            (List.dropWhile_sublist _).length_le
          have h2 : rest.length + 1 = n := by rw [← hn]; rfl
          omega
        have hrec := ih _ hlen _ rfl hsuf
        have hhead : (colapsaEspacios (rest.dropWhile esEspacio)).head? ≠ some ' ' := by
          rw [colapsaEspacios_head]
          cases hd : (rest.dropWhile esEspacio).head? with
          | none => simp
          | some d =>
            have hnot := List.head?_dropWhile_not esEspacio rest
            rw [hd] at hnot
            simp only [Option.mem_def, Option.some.injEq, forall_eq'] at hnot
            simp only [Option.map_some']
            intro hcon
            have hdc : (if esEspacio d = true then ' ' else d) = ' ' := by injection hcon
            rw [if_neg (by simp [hnot])] at hdc
            rw [hdc] at hnot
            simp [esEspacio] at hnot
        exact buenasRepes_cons hrec hhead
      · rw [if_neg hsp]
        cases rest with
        | nil => trivial
        | cons d r =>
          by_cases hdc : d = c
          · subst hdc
            rw [colapsaEspacios_cons, if_neg hsp]
            have hr : buenasRepes r := buenasRepes_tail (buenasRepes_tail h)
            have hlen : r.length < n := by
              have h2 : r.length + 1 + 1 = n := by rw [← hn]; rfl
              omega
            have hrec := ih _ hlen _ rfl hr
            have hhead : (colapsaEspacios r).head? ≠ some d := by
              rw [colapsaEspacios_head]
              cases r with
              | nil => simp
              | cons e r' =>
                simp only [List.head?_cons, Option.map_some']
                intro hcon
                have he : (if esEspacio e = true then ' ' else e) = d := by injection hcon
                by_cases hspe : esEspacio e = true
                · rw [if_pos hspe] at he
                  rw [← he] at hsp
                  simp [esEspacio] at hsp
                · rw [if_neg hspe] at he
                  have hnl := h.1 rfl he.symm
                  rw [hnl] at hsp
                  simp [esEspacio] at hsp
            exact buenasRepes_cons2 hrec hhead
          · have hr : buenasRepes (d :: r) := buenasRepes_tail h
            have hlen : (d :: r).length < n := by
              have h2 : (d :: r).length + 1 = n := by rw [← hn]; rfl
              omega
            have hrec := ih _ hlen _ rfl hr
            have hhead : (colapsaEspacios (d :: r)).head? ≠ some c := by
              rw [colapsaEspacios_head]
              simp only [List.head?_cons, Option.map_some']
              intro hcon
              have he : (if esEspacio d = true then ' ' else d) = c := by injection hcon
              by_cases hspd : esEspacio d = true
              · rw [if_pos hspd] at he
                rw [← he] at hsp
                simp [esEspacio] at hsp
              · rw [if_neg hspd] at he
                exact hdc he
            exact buenasRepes_cons hrec hhead

/-! ### C8: the single-space invariant -/

theorem buenosEspacios_cons {c : Char} {l : List Char} (hZ : buenosEspacios l)
    (hc : esEspacio c = true → c = ' ')
    (hpair : ∀ d, l.head? = some d → ¬(esEspacio c = true ∧ esEspacio d = true)) :
    buenosEspacios (c :: l) := by
  cases l with
  | nil => exact hc
  | cons d r => exact ⟨hc, hpair d rfl, hZ⟩

theorem buenosEspacios_colapsaEspacios :
    ∀ (l : List Char), buenosEspacios (colapsaEspacios l) := by
  intro l
  generalize hn : l.length = n
  induction n using Nat.strong_induction_on generalizing l with
  | _ n ih =>
    cases l with
    | nil => trivial
    | cons c rest =>
      rw [colapsaEspacios_cons]
      by_cases hsp : esEspacio c = true
      · rw [if_pos hsp]
        have hlen : (rest.dropWhile esEspacio).length < n := by
          have h1 : (rest.dropWhile esEspacio).length ≤ rest.length :=
            (List.dropWhile_sublist _).length_le
          have h2 : rest.length + 1 = n := by rw [← hn]; rfl
          omega
        refine buenosEspacios_cons (ih _ hlen _ rfl) (fun _ => rfl) ?_
        intro d hd hcon
        rw [colapsaEspacios_head] at hd
        cases he : (rest.dropWhile esEspacio).head? with
        | none => rw [he] at hd; simp at hd
        | some e =>
          rw [he] at hd
          simp only [Option.map_some', Option.some.injEq] at hd
          have hnot := List.head?_dropWhile_not esEspacio rest
          rw [he] at hnot
          simp only [Option.mem_def, Option.some.injEq, forall_eq'] at hnot
          rw [if_neg (by simp [hnot])] at hd
          rw [hd] at hnot
          exact absurd hcon.2 (by simp [hnot])
      · rw [if_neg hsp]
        have hlen : rest.length < n := by
          have h2 : rest.length + 1 = n := by rw [← hn]; rfl
          omega
        refine buenosEspacios_cons (ih _ hlen _ rfl) (fun hcon => absurd hcon hsp) ?_
        intro d _ hcon
        exact hsp hcon.1

theorem buenosEspacios_tail {a : Char} {l : List Char} (h : buenosEspacios (a :: l)) :
    buenosEspacios l := by
  cases l with
  | nil => trivial
  | cons b r => exact h.2.2

theorem buenosEspacios_id :
    ∀ (l : List Char), buenosEspacios l → colapsaEspacios l = l := by
  intro l
  generalize hn : l.length = n
  induction n using Nat.strong_induction_on generalizing l with
  | _ n ih =>
    intro h
    cases l with
    | nil => rfl
    | cons c rest =>
      rw [colapsaEspacios_cons]
      by_cases hsp : esEspacio c = true
      · rw [if_pos hsp]
        cases rest with
        | nil =>
          have hce : c = ' ' := h hsp
          rw [hce]
          rfl
        | cons d r =>
          have hce : c = ' ' := h.1 hsp
          have hnd : esEspacio d = false := by
            cases hx : esEspacio d
            · rfl
            · exact absurd ⟨hsp, hx⟩ h.2.1
          have hdrop : (d :: r).dropWhile esEspacio = d :: r := by
            simp [List.dropWhile_cons, hnd]
          rw [hdrop, hce]
          have hlen : (d :: r).length < n := by
            have h2 : (d :: r).length + 1 = n := by rw [← hn]; rfl
            omega
          rw [ih _ hlen _ rfl (buenosEspacios_tail h)]
      · rw [if_neg hsp]
        cases rest with
        | nil => rfl
        | cons d r =>
          have hlen : (d :: r).length < n := by
            have h2 : (d :: r).length + 1 = n := by rw [← hn]; rfl
            omega
          rw [ih _ hlen _ rfl (buenosEspacios_tail h)]

/-! ### C8: character-level facts about the modelled repertoire -/

theorem headD_irrel {α : Type} {l : List α} (h : l ≠ []) (d e : α) :
    l.headD d = l.headD e := by
  cases l with
  | nil => exact absurd rfl h
  | cons a r => rfl

theorem mem_recorta {c : Char} {l : List Char} (h : c ∈ recorta l) : c ∈ l := by
  unfold recorta at h
  rw [List.mem_reverse] at h
  have h1 := (List.dropWhile_sublist _).mem h
  rw [List.mem_reverse] at h1
  exact (List.dropWhile_sublist _).mem h1

theorem minuscula_esMn : ∀ (a : Char), esMn a = false → esMn (minuscula a) = false := by
  intro a ha
  unfold minuscula
  cases hb : busca a tablaMinusculas with
  | none => simpa using ha
  | some v =>
    have hm := busca_mem a _ v hb
    have hfin : ∀ p ∈ tablaMinusculas, esMn p.2 = false := by decide
    simpa using hfin _ hm

theorem minuscula_no_clave (a : Char) : busca (minuscula a) tablaMinusculas = none := by
  unfold minuscula
  cases ha : busca a tablaMinusculas with
  | none => exact ha
  | some v =>
    simp only [Option.getD_some]
    have hfin : ∀ p ∈ tablaMinusculas, busca p.2 tablaMinusculas = none := by decide
    exact hfin _ (busca_mem a _ v ha)

theorem minuscula_nfd_fijo : ∀ (a c : Char), c ∈ nfd (minuscula a) → esMn c = false →
    minuscula c = c ∧ nfd c = [c] := by
  intro a c hc hm
  unfold nfd at hc
  cases hb : busca (minuscula a) tablaNFD with
  | some vs =>
    rw [hb] at hc
    simp only [Option.getD_some] at hc
    have hq := busca_mem _ _ vs hb
    have hfin : ∀ q ∈ tablaNFD, busca q.1 tablaMinusculas = none → ∀ d ∈ q.2,
        esMn d = true ∨ (busca d tablaMinusculas = none ∧ busca d tablaNFD = none) := by
      decide
    rcases hfin _ hq (minuscula_no_clave a) c hc with h | h
    · rw [hm] at h; cases h
    · constructor
      · unfold minuscula; rw [h.1]; rfl
      · unfold nfd; rw [h.2]; rfl
  | none =>
    rw [hb] at hc
    simp only [Option.getD_none, List.mem_singleton] at hc
    subst hc
    refine ⟨?_, by unfold nfd; rw [hb]; rfl⟩
    cases ha : busca a tablaMinusculas with
    | none =>
      have h0 : minuscula a = a := by unfold minuscula; rw [ha]; rfl
      rw [h0]
      exact h0
    | some v =>
      have h0 : minuscula a = v := by unfold minuscula; rw [ha]; rfl
      have hfin : ∀ p ∈ tablaMinusculas, minuscula p.2 = p.2 := by decide
      rw [h0]
      exact hfin _ (busca_mem a _ v ha)

theorem nfd_core_eq {a : Char} (hm : esMn a = false) :
    (nfd a).filter (fun c => !(esMn c)) = [nfdCore a] := by
  unfold nfdCore nfd
  cases hb : busca a tablaNFD with
  | none =>
    simp [hm]
  | some vs =>
    simp only [Option.getD_some]
    have hq := busca_mem _ _ vs hb
    have hfin : ∀ q ∈ tablaNFD, q.2 ≠ [] ∧
        q.2.filter (fun c => !(esMn c)) = [q.2.headD ' '] := by decide
    rw [headD_irrel (hfin _ hq).1 a ' ']
    exact (hfin _ hq).2

theorem nfdCore_espacio (a : Char) : esEspacio (nfdCore a) = esEspacio a := by
  unfold nfdCore nfd
  cases hb : busca a tablaNFD with
  | none => rfl
  | some vs =>
    simp only [Option.getD_some]
    have hq := busca_mem _ _ vs hb
    have hfin : ∀ q ∈ tablaNFD, q.2 ≠ [] ∧
        esEspacio (q.2.headD ' ') = false ∧ esEspacio q.1 = false := by decide
    obtain ⟨hne, hv, hk⟩ := hfin _ hq
    rw [headD_irrel hne a ' ', hv, hk]

theorem flatMap_filter_core :
    ∀ (l : List Char), (∀ a ∈ l, esMn a = false) →
      (l.flatMap nfd).filter (fun c => !(esMn c)) = l.map nfdCore := by
  intro l
  induction l with
  | nil => intro _; rfl
  | cons a r ih =>
    intro h
    rw [List.flatMap_cons, List.filter_append, List.map_cons,
      nfd_core_eq (h a (List.mem_cons_self _ _)),
      ih (fun b hb => h b (List.mem_cons_of_mem _ hb))]
    rfl

/-! ### C8: strip boundaries -/

theorem recorta_head {l : List Char} {c : Char} (h : (recorta l).head? = some c) :
    esEspacio c = false := by
  unfold recorta at h
  rw [List.head?_reverse] at h
  cases hX : (l.dropWhile esEspacio).reverse.dropWhile esEspacio with
  | nil => rw [hX] at h; simp at h
  | cons x xs =>
    obtain ⟨pre, hpre⟩ :=
      List.dropWhile_suffix (l := (l.dropWhile esEspacio).reverse) esEspacio
    have hne : (l.dropWhile esEspacio).reverse.dropWhile esEspacio ≠ [] := by
      rw [hX]; simp
    have hlast : ((l.dropWhile esEspacio).reverse).getLast? =
        ((l.dropWhile esEspacio).reverse.dropWhile esEspacio).getLast? := by
      conv_lhs => rw [← hpre]
      rw [List.getLast?_append_of_ne_nil _ hne]
    rw [← hlast, List.getLast?_reverse] at h
    have hnot := List.head?_dropWhile_not esEspacio l
    rw [h] at hnot
    simp only [Option.mem_def, Option.some.injEq, forall_eq'] at hnot
    exact hnot

theorem recorta_getLast {l : List Char} {c : Char} (h : (recorta l).getLast? = some c) :
    esEspacio c = false := by
  unfold recorta at h
  rw [List.getLast?_reverse] at h
  have hnot := List.head?_dropWhile_not esEspacio ((l.dropWhile esEspacio).reverse)
  rw [h] at hnot
  simp only [Option.mem_def, Option.some.injEq, forall_eq'] at hnot
  exact hnot

theorem recorta_fijo {l : List Char}
    (hh : ∀ c, l.head? = some c → esEspacio c = false)
    (hl : ∀ c, l.getLast? = some c → esEspacio c = false) :
    recorta l = l := by
  have h1 : l.dropWhile esEspacio = l := by
    cases l with
    | nil => rfl
    | cons c r => simp [List.dropWhile_cons, hh c rfl]
  unfold recorta
  rw [h1]
  have h2 : l.reverse.dropWhile esEspacio = l.reverse := by
    cases hr : l.reverse with
    | nil => rfl
    | cons c r =>
      have hc : l.getLast? = some c := by
        rw [← List.head?_reverse, hr]
        rfl
      simp [List.dropWhile_cons, hl c hc]
  rw [h2, List.reverse_reverse]

/-! ### C8: characters of a normalized text are fixed points of every stage -/

theorem map_minuscula_id {l : List Char} (h : ∀ c ∈ l, minuscula c = c) :
    l.map minuscula = l := by
  conv_rhs => rw [← List.map_id l]
  exact List.map_congr_left (fun a ha => h a ha)

theorem flatMap_nfd_id {l : List Char} (h : ∀ c ∈ l, nfd c = [c]) :
    l.flatMap nfd = l := by
  induction l with
  | nil => rfl
  | cons a r ih =>
    rw [List.flatMap_cons, h a (List.mem_cons_self _ _),
      ih (fun b hb => h b (List.mem_cons_of_mem _ hb))]
    rfl

theorem chars_norm (x : List Char) :
    ∀ c ∈ norm x, minuscula c = c ∧ nfd c = [c] ∧ esMn c = false := by
  intro c hc
  unfold norm at hc
  rcases mem_colapsaEspacios hc with h1 | h1
  · have h2 := mem_colapsaRepes h1
    rcases List.mem_filter.mp h2 with ⟨h21, h22⟩
    have hm : esMn c = false := by simpa using h22
    rcases List.mem_flatMap.mp h21 with ⟨b, hb1, hb2⟩
    have hb3 := mem_recorta hb1
    rcases List.mem_map.mp hb3 with ⟨a, _, rfl⟩
    rcases minuscula_nfd_fijo a c hb2 hm with ⟨hA, hB⟩
    exact ⟨hA, hB, hm⟩
  · subst h1
    exact ⟨by decide, by decide, by decide⟩

/-- **C8** (amended).  Normalization is idempotent on every input free of
combining marks (category `Mn`): `norm (norm x) = norm x`.  (On arbitrary
inputs idempotence fails, because stripping runs before mark removal: a bare
combining mark can shield boundary whitespace from the strip; see the
counterexample.) -/
theorem c8_norm_idempotente_sin_marcas (x : List Char)
    (hx : ∀ c ∈ x, esMn c = false) : norm (norm x) = norm x := by
  have hx2 : ∀ c ∈ recorta (x.map minuscula), esMn c = false := by
    intro c hc
    rcases List.mem_map.mp (mem_recorta hc) with ⟨a, ha, rfl⟩
    exact minuscula_esMn a (hx a ha)
  have hM : ((recorta (x.map minuscula)).flatMap nfd).filter (fun c => !(esMn c)) =
      (recorta (x.map minuscula)).map nfdCore := flatMap_filter_core _ hx2
  have hnx : norm x =
      colapsaEspacios (colapsaRepes ((recorta (x.map minuscula)).map nfdCore)) := by
    unfold norm
    rw [hM]
  have h4head : ∀ c, ((recorta (x.map minuscula)).map nfdCore).head? = some c →
      esEspacio c = false := by
    intro c hc
    rw [List.head?_map] at hc
    cases hh : (recorta (x.map minuscula)).head? with
    | none => rw [hh] at hc; simp at hc
    | some b =>
      rw [hh] at hc
      simp only [Option.map_some', Option.some.injEq] at hc
      have hbsp : esEspacio b = false := recorta_head hh
      rw [← hc, nfdCore_espacio]
      exact hbsp
  have h4last : ∀ c, ((recorta (x.map minuscula)).map nfdCore).getLast? = some c →
      esEspacio c = false := by
    intro c hc
    rw [List.getLast?_map] at hc
    cases hh : (recorta (x.map minuscula)).getLast? with
    | none => rw [hh] at hc; simp at hc
    | some b =>
      rw [hh] at hc
      simp only [Option.map_some', Option.some.injEq] at hc
      have hbsp : esEspacio b = false := recorta_getLast hh
      rw [← hc, nfdCore_espacio]
      exact hbsp
  have hyhead : ∀ c, (norm x).head? = some c → esEspacio c = false := by
    intro c hc
    rw [hnx, colapsaEspacios_head, colapsaRepes_head] at hc
    cases hh : ((recorta (x.map minuscula)).map nfdCore).head? with
    | none => rw [hh] at hc; simp at hc
    | some b =>
      rw [hh] at hc
      simp only [Option.map_some', Option.some.injEq] at hc
      have hb := h4head b hh
      rw [if_neg (by simp [hb])] at hc
      rw [← hc]
      exact hb
  have hylast : ∀ c, (norm x).getLast? = some c → esEspacio c = false := by
    intro c hc
    cases hx5 : (colapsaRepes ((recorta (x.map minuscula)).map nfdCore)).getLast? with
    | none =>
      have hnil := List.getLast?_eq_none_iff.mp hx5
      rw [hnx, hnil] at hc
      have hvac : colapsaEspacios ([] : List Char) = [] := rfl
      rw [hvac] at hc
      simp at hc
    | some b =>
      have hb4 : ((recorta (x.map minuscula)).map nfdCore).getLast? = some b := by
        rw [← colapsaRepes_getLast]
        exact hx5
      have hbsp := h4last b hb4
      have hle := colapsaEspacios_getLast _ b hx5 hbsp
      rw [hnx] at hc
      rw [hle] at hc
      injection hc with he
      rw [← he]
      exact hbsp
  have hch := chars_norm x
  have s1 : (norm x).map minuscula = norm x := map_minuscula_id (fun c hc => (hch c hc).1)
  have s2 : recorta (norm x) = norm x := recorta_fijo hyhead hylast
  have s3 : (norm x).flatMap nfd = norm x := flatMap_nfd_id (fun c hc => (hch c hc).2.1)
  have s4 : (norm x).filter (fun c => !(esMn c)) = norm x :=
    List.filter_eq_self.mpr (fun c hc => by rw [(hch c hc).2.2]; rfl)
  have s5 : colapsaRepes (norm x) = norm x :=
    buenasRepes_colapsaRepes_id _
      (by rw [hnx]; exact buenasRepes_colapsaEspacios _ (buenasRepes_colapsaRepes _))
  have s6 : colapsaEspacios (norm x) = norm x := by
    rw [hnx]
    exact buenosEspacios_id _ (buenosEspacios_colapsaEspacios _)
  show colapsaEspacios (colapsaRepes (((recorta ((norm x).map minuscula)).flatMap
    nfd).filter (fun c => !(esMn c)))) = norm x
  rw [s1, s2, s3, s4, s5, s6]

/-- **C8**, counterexample to the claim as stated: on the three-character input
U+0301 (a bare combining acute), space, `a`, the first normalization leaves a
leading space (the combining mark shields the space from `strip`, and is only
removed afterwards), so a second normalization strips further:
`norm (norm x) = "a"` but `norm x = " a"`. -/
theorem c8_contraejemplo :
    norm (norm ['́', ' ', 'a']) ≠ norm ['́', ' ', 'a'] := by decide

/-- **C8** witness: a concrete input free of combining marks on which the
amended idempotence theorem applies. -/
theorem c8_norm_idempotente_sin_marcas_testigo :
    (∀ c ∈ ("Hooola   MUNDO Á".data), esMn c = false) ∧
      norm (norm ("Hooola   MUNDO Á".data)) = norm ("Hooola   MUNDO Á".data) :=
  ⟨by decide, c8_norm_idempotente_sin_marcas _ (by decide)⟩

end MindCare
